import Mathlib

/-!
# storage/reads/table.go

A shallow embedding of the `table` type of package `reads` (the base that the
typed and grouped tables share) and of its methods, followed by theorems about
tag resolution, tag and bounds replication, the typed accessors, the completion
channel, cancellation, and what each operation leaves unchanged.

Conventions of the embedding.

* A Go `[]byte` is an `Option Bytes`: `none` is the nil slice, `some bs` a
  non-nil slice (possibly of length 0). The source distinguishes the two
  (`v != nil` in `appendTags`).
* A Go `string` and a tag key (which the source only uses through
  `string(tag.Key)`) are both a `String`: only equality of keys and labels is
  ever observed.
* An `array.Interface` is an `Option ArrowArray`: `none` is the nil interface
  of a column buffer never written.
* A method with a pointer receiver becomes a function from the table before
  the call to an `Outcome`: the table after a normal return, or the table as it
  stood when a run-time panic (index out of range) stopped the method.
* The allocator only accounts for memory; builders are modelled by the list of
  values appended so far, and `Reserve`, `ReserveData` and `Release` (which
  change capacity, not contents) do not appear.
* `atomic.StoreInt32` and `atomic.LoadInt32` are a plain write and read: the
  embedding is sequential.
-/

namespace Reads

/-- The contents of a non-nil byte slice. -/
abbrev Bytes := List UInt8

/-- Column types of `flux.ColType`, in declaration order. -/
inductive ColType where
  | TInvalid
  | TBool
  | TInt
  | TUInt
  | TFloat
  | TString
  | TTime
  deriving DecidableEq, Repr

/-- Column metadata `flux.ColMeta`; `Typ` is the field `Type`. -/
structure ColMeta where
  Label : String
  Typ : ColType
  deriving DecidableEq, Repr

/-- Time bounds `execute.Bounds`; `execute.Time` is an int64. -/
structure Bounds where
  Start : Int
  Stop : Int
  deriving DecidableEq, Repr

/-- A tag `models.Tag`; the key is read through `string(tag.Key)`. -/
structure Tag where
  Key : String
  Value : Option Bytes
  deriving DecidableEq, Repr

/-- The arrow arrays a column buffer can hold, by dynamic type. Float values
are kept as their 64-bit patterns; no arithmetic is done on them here. -/
inductive ArrowArray where
  | boolean (vs : List Bool)
  | int64 (vs : List Int)
  | uint64 (vs : List Nat)
  | float64 (vs : List Nat)
  | binary (vs : List Bytes)
  deriving DecidableEq, Repr

/-- A channel `chan struct{}` is known by its identity. -/
abbrev Chan := Nat

/-- The `table` struct. `l` is the number of records in memory (a slice
length, so never negative); `err` carries the error message when set; `alloc`
is not modelled. -/
structure Table where
  bounds : Bounds
  key : List (ColMeta × String)
  cols : List ColMeta
  tags : List (Option Bytes)
  defs : List (Option Bytes)
  done : Option Chan
  l : Nat
  colBufs : List (Option ArrowArray)
  err : Option String
  cancelled : Int
  deriving DecidableEq, Repr

/-- How a method call on a table ends. -/
inductive Outcome where
  | returned (t : Table)
  | panicked (t : Table)
  deriving DecidableEq, Repr

/-- The table an outcome leaves behind. -/
def Outcome.table : Outcome → Table
  | .returned t => t
  | .panicked t => t

/-- Sequencing: a panic stops everything after it. -/
def Outcome.andThen (o : Outcome) (f : Table → Outcome) : Outcome :=
  match o with
  | .returned t => f t
  | .panicked t => .panicked t

/-- A loop `for j := range xs` / `for _, x := range xs` over the items `xs`,
run from the table `t`, stopping at the first panic. -/
def forEach {α : Type} (body : α → Table → Outcome) : List α → Table → Outcome
  | [], t => .returned t
  | x :: xs, t =>
    match body x t with
    | .returned t1 => forEach body xs t1
    | .panicked t1 => .panicked t1

/-- Scan of `execute.ColIdx` from position `j` on. -/
def ColIdx.scan (label : String) : List ColMeta → Nat → Int
  | [], _ => -1
  | c :: cs, j => if c.Label = label then (j : Int) else ColIdx.scan label cs (j + 1)

/-- The library function `execute.ColIdx`: the index of the first column with
the label, or -1 when there is none. -/
def ColIdx (label : String) (cols : List ColMeta) : Int :=
  ColIdx.scan label cols 0

/-- Constructor `newTable`. -/
def newTable (done : Option Chan) (bounds : Bounds) (key : List (ColMeta × String))
    (cols : List ColMeta) (defs : List (Option Bytes)) : Table :=
  { done := done
    bounds := bounds
    key := key
    tags := List.replicate cols.length none
    defs := defs
    colBufs := List.replicate cols.length none
    cols := cols
    l := 0
    err := none
    cancelled := 0 }

def Table.Key (t : Table) : List (ColMeta × String) := t.key
def Table.Cols (t : Table) : List ColMeta := t.cols
def Table.Err (t : Table) : Option String := t.err
def Table.Empty (t : Table) : Bool := t.l == 0
def Table.Len (t : Table) : Nat := t.l

/-- Method `Cancel`: store 1 in the flag. -/
def Table.Cancel (t : Table) : Table := { t with cancelled := 1 }

/-- Method `isCancelled`. -/
def Table.isCancelled (t : Table) : Bool := t.cancelled != 0

def Table.Retain (t : Table) : Table := t
def Table.Release (t : Table) : Table := t

/-- Why a typed accessor panics. -/
inductive AccessPanic where
  | indexOutOfRange (j : Nat)
  | colType (col : ColMeta) (typ : ColType)
  | typeAssertion (buf : Option ArrowArray)
  deriving DecidableEq, Repr

/-- The library function `execute.CheckColType`: panics, naming the column and
the requested type, when the column is not of the type. -/
def CheckColType (col : ColMeta) (typ : ColType) : Except AccessPanic Unit :=
  if col.Typ ≠ typ then .error (.colType col typ) else .ok ()

/-- The shared shape of the six accessors: index `t.cols[j]`, check the column
type, index `t.colBufs[j]`, then assert the buffer's dynamic type with `cast`. -/
def Table.typed {α : Type} (t : Table) (j : Nat) (typ : ColType)
    (cast : ArrowArray → Option α) : Except AccessPanic α :=
  match t.cols[j]? with
  | none => .error (.indexOutOfRange j)
  | some col =>
    match CheckColType col typ with
    | .error e => .error e
    | .ok () =>
      match t.colBufs[j]? with
      | none => .error (.indexOutOfRange j)
      | some buf =>
        match buf.bind cast with
        | none => .error (.typeAssertion buf)
        | some a => .ok a

def ArrowArray.asBoolean : ArrowArray → Option (List Bool)
  | .boolean vs => some vs
  | _ => none

def ArrowArray.asInt64 : ArrowArray → Option (List Int)
  | .int64 vs => some vs
  | _ => none

def ArrowArray.asUint64 : ArrowArray → Option (List Nat)
  | .uint64 vs => some vs
  | _ => none

def ArrowArray.asFloat64 : ArrowArray → Option (List Nat)
  | .float64 vs => some vs
  | _ => none

def ArrowArray.asBinary : ArrowArray → Option (List Bytes)
  | .binary vs => some vs
  | _ => none

def Table.Bools (t : Table) (j : Nat) : Except AccessPanic (List Bool) :=
  t.typed j .TBool ArrowArray.asBoolean

def Table.Ints (t : Table) (j : Nat) : Except AccessPanic (List Int) :=
  t.typed j .TInt ArrowArray.asInt64

def Table.UInts (t : Table) (j : Nat) : Except AccessPanic (List Nat) :=
  t.typed j .TUInt ArrowArray.asUint64

def Table.Floats (t : Table) (j : Nat) : Except AccessPanic (List Nat) :=
  t.typed j .TFloat ArrowArray.asFloat64

def Table.Strings (t : Table) (j : Nat) : Except AccessPanic (List Bytes) :=
  t.typed j .TString ArrowArray.asBinary

def Table.Times (t : Table) (j : Nat) : Except AccessPanic (List Int) :=
  t.typed j .TTime ArrowArray.asInt64

/-- Body of the first loop of `readTags`: `t.tags[j] = t.defs[j]`. -/
def readTags.assignDef (j : Nat) (t : Table) : Outcome :=
  match t.defs[j]? with
  | none => .panicked t
  | some d => if j < t.tags.length then .returned { t with tags := t.tags.set j d } else .panicked t

/-- Body of the second loop of `readTags`:
`j := execute.ColIdx(string(tag.Key), t.cols); t.tags[j] = tag.Value`. -/
def readTags.assignTag (tag : Tag) (t : Table) : Outcome :=
  let j := ColIdx tag.Key t.cols
  if 0 ≤ j ∧ j.toNat < t.tags.length then
    .returned { t with tags := t.tags.set j.toNat tag.Value }
  else .panicked t

/-- Method `readTags`. -/
def Table.readTags (t : Table) (tags : List Tag) : Outcome :=
  (forEach readTags.assignDef (List.range t.tags.length) t).andThen fun t1 =>
    if tags.length = 0 then .returned t1
    else forEach readTags.assignTag tags t1

/-- A string builder holding the values appended so far, after `n` more calls
of `b.Append(v)`: the loop `for i := 0; i < t.l; i++ { b.Append(v) }`. -/
def appendLoop {α : Type} (v : α) : Nat → List α → List α
  | 0, b => b
  | n + 1, b => appendLoop v n (b ++ [v])

/-- Body of the loop of `appendTags` at column `j`. -/
def appendTags.column (j : Nat) (t : Table) : Outcome :=
  match t.tags[j]? with
  | none => .panicked t
  | some none => .returned t
  | some (some v) =>
    let arr := ArrowArray.binary (appendLoop v t.l [])
    if j < t.colBufs.length then .returned { t with colBufs := t.colBufs.set j (some arr) }
    else .panicked t

/-- Method `appendTags`. -/
def Table.appendTags (t : Table) : Outcome :=
  forEach appendTags.column (List.range t.cols.length) t

/-- Body of the loop of `appendBounds` at position `j` of the two-element
slice: `bounds[j]` is appended `t.l` times and the array stored in
`t.colBufs[j]`. -/
def appendBounds.column (bounds : List Int) (j : Nat) (t : Table) : Outcome :=
  match bounds[j]? with
  | none => .panicked t
  | some b =>
    let arr := ArrowArray.int64 (appendLoop b t.l [])
    if j < t.colBufs.length then .returned { t with colBufs := t.colBufs.set j (some arr) }
    else .panicked t

/-- Method `appendBounds`. The constants `startColIdx` and `stopColIdx` are
declared elsewhere in the package and are parameters here. The source loop is
`for j := range []int{startColIdx, stopColIdx}` with a single loop variable, so
`j` runs over the positions of that slice. -/
def Table.appendBounds (startColIdx stopColIdx : Nat) (t : Table) : Outcome :=
  let bounds := [t.bounds.Start, t.bounds.Stop]
  forEach (appendBounds.column bounds) (List.range [startColIdx, stopColIdx].length) t

/-- The builtin `close` on a channel, given the channels closed so far: closing
a closed channel panics (`none`). -/
def closeChan (c : Chan) (closed : List Chan) : Option (List Chan) :=
  if c ∈ closed then none else some (c :: closed)

/-- Method `closeDone`, with the list of channels closed so far threaded
through; `none` is the panic of `close`. -/
def Table.closeDone (t : Table) (closed : List Chan) : Option (Table × List Chan) :=
  match t.done with
  | some c =>
    match closeChan c closed with
    | none => none
    | some closed1 => some ({ t with done := none }, closed1)
  | none => some (t, closed)

/-- Row count `Len()` of an arrow array. -/
def ArrowArray.Len : ArrowArray → Nat
  | .boolean vs => vs.length
  | .int64 vs => vs.length
  | .uint64 vs => vs.length
  | .float64 vs => vs.length
  | .binary vs => vs.length

/-- Modelled from the spec: the fill loop of the typed tables, which drives a
refill cycle, is generated code that is not in this source file. The cycle is
the sequence C7 names: `readTags` for the series, the length set to the row
count `n` of the run, then `appendTags` and `appendBounds`, each of them the
method of this file. The value and time columns, which the generated code
builds, are left as they are. -/
def Table.refill (startColIdx stopColIdx : Nat) (t : Table) (tags : List Tag) (n : Nat) :
    Outcome :=
  (t.readTags tags).andThen fun t1 =>
    (Table.appendTags { t1 with l := n }).andThen fun t2 =>
      t2.appendBounds startColIdx stopColIdx

/-- A sequence of `n` calls of `closeDone`. -/
def Table.closeDoneTimes : Nat → Table → List Chan → Option (Table × List Chan)
  | 0, t, closed => some (t, closed)
  | n + 1, t, closed =>
    match t.closeDone closed with
    | none => none
    | some (t1, closed1) => Table.closeDoneTimes n t1 closed1

/-- Whether a call returned normally. -/
def Outcome.isReturned : Outcome → Bool
  | .returned _ => true
  | .panicked _ => false

/-- The lengths of the four slices of a table: `tags`, `cols`, `defs` and
`colBufs`. -/
def Table.lengths (t : Table) : Nat × Nat × Nat × Nat :=
  (t.tags.length, t.cols.length, t.defs.length, t.colBufs.length)

/-- The fields set at construction (bounds, key, columns, defaults) together
with the lengths of `tags` and `colBufs`. -/
def Table.layout (t : Table) :
    Bounds × List (ColMeta × String) × List ColMeta × List (Option Bytes) × Nat × Nat :=
  (t.bounds, t.key, t.cols, t.defs, t.tags.length, t.colBufs.length)

/-- A call of one of the operations of the table, with its arguments. -/
inductive Op where
  | readTags (tags : List Tag)
  | appendTags
  | appendBounds
  | Cancel
  | closeDone
  | Retain
  | Release
  | Bools (j : Nat)
  | Ints (j : Nat)
  | UInts (j : Nat)
  | Floats (j : Nat)
  | Strings (j : Nat)
  | Times (j : Nat)
  deriving DecidableEq, Repr

/-- The table and the closed channels after one call. A call that panics
leaves the table as it stood at the panic (for `closeDone`, as it was, since
`close` comes before the write of the field). The six accessors assign to
nothing: whatever they return, the table after the call is the table before. -/
def Op.run (startColIdx stopColIdx : Nat) : Op → Table × List Chan → Table × List Chan
  | .readTags tags, (t, closed) => ((t.readTags tags).table, closed)
  | .appendTags, (t, closed) => (t.appendTags.table, closed)
  | .appendBounds, (t, closed) => ((t.appendBounds startColIdx stopColIdx).table, closed)
  | .Cancel, (t, closed) => (t.Cancel, closed)
  | .closeDone, (t, closed) =>
    match t.closeDone closed with
    | some r => r
    | none => (t, closed)
  | .Retain, (t, closed) => (t.Retain, closed)
  | .Release, (t, closed) => (t.Release, closed)
  | .Bools _, st => st
  | .Ints _, st => st
  | .UInts _, st => st
  | .Floats _, st => st
  | .Strings _, st => st
  | .Times _, st => st

/-- A sequence of calls, one after the other. -/
def runOps (startColIdx stopColIdx : Nat) (ops : List Op) (st : Table × List Chan) :
    Table × List Chan :=
  ops.foldl (fun st1 op => op.run startColIdx stopColIdx st1) st

/-! ## Sample tables -/

/-- Columns of an integer table with the tag columns `host` and `region`. -/
def sampleCols : List ColMeta :=
  [⟨"_start", .TTime⟩, ⟨"_stop", .TTime⟩, ⟨"_time", .TTime⟩, ⟨"_value", .TInt⟩,
    ⟨"host", .TString⟩, ⟨"region", .TString⟩]

/-- Defaults: nil for bounds, time and value, the non-nil empty string for the
two tag columns. -/
def sampleDefs : List (Option Bytes) := [none, none, none, none, some [], some []]

/-- A fresh table over `sampleCols` with bounds 100 and 200. -/
def sampleTable : Table :=
  newTable (some 7) ⟨100, 200⟩ [(⟨"host", .TString⟩, "a")] sampleCols sampleDefs

/-- The tag list `host=a`. -/
def sampleTags : List Tag := [⟨"host", some [97]⟩]

/-- A tag list with the key `host` twice: `host=a`, then `host=b`. -/
def twiceTags : List Tag := [⟨"host", some [97]⟩, ⟨"host", some [98]⟩]

/-- A tag list with the undeclared key `rack`. -/
def strayTags : List Tag := [⟨"host", some [97]⟩, ⟨"rack", some [49]⟩]

/-- The sample table with three records in memory. -/
def sampleTable3 : Table := { sampleTable with l := 3 }

/-- The sample table with three records and the default `-` for `region`. -/
def dashTable3 : Table :=
  { sampleTable with l := 3, defs := [none, none, none, none, some [], some [45]] }

/-- A fresh table over `sampleCols` whose defaults are all nil. -/
def nilDefsTable : Table :=
  newTable (some 7) ⟨100, 200⟩ [] sampleCols [none, none, none, none, none, none]

/-- The tag list `host=a`, `region=w`. -/
def bothTags : List Tag := [⟨"host", some [97]⟩, ⟨"region", some [119]⟩]

/-- The tag list `host=b`. -/
def hostTags : List Tag := [⟨"host", some [98]⟩]

/-- A table built with one column and an empty slice of defaults. -/
def shortDefsTable : Table := newTable none ⟨0, 0⟩ [] [⟨"host", .TString⟩] []

/-- A run of calls on the sample table. -/
def sampleOps : List Op :=
  [.readTags sampleTags, .appendTags, .appendBounds, .Ints 3, .Cancel, .closeDone,
    .readTags strayTags, .Retain, .Strings 4, .closeDone, .Release]

/-! ## Auxiliary lemmas -/

theorem appendLoop_eq (α : Type) (v : α) (n : Nat) (b : List α) :
    appendLoop v n b = b ++ List.replicate n v := by
  induction n generalizing b with
  | zero => simp [appendLoop]
  | succ n ih =>
    rw [appendLoop, ih, List.replicate_succ, List.append_assoc]
    rfl

theorem appendLoop_nil (α : Type) (v : α) (n : Nat) :
    appendLoop v n [] = List.replicate n v := by
  rw [appendLoop_eq, List.nil_append]

theorem ColIdx.scan_of_mem (label : String) (cols : List ColMeta) (s : Nat)
    (h : ∃ c ∈ cols, c.Label = label) :
    ∃ k, k < cols.length ∧ ColIdx.scan label cols s = ((s + k : Nat) : Int) ∧
      (cols[k]?).map ColMeta.Label = some label := by
  induction cols generalizing s with
  | nil => simp at h
  | cons c cs ih =>
    by_cases hc : c.Label = label
    · exact ⟨0, by simp, by simp [ColIdx.scan, hc], by simp [hc]⟩
    · have h1 : ∃ c ∈ cs, c.Label = label := by
        obtain ⟨x, hx, hxl⟩ := h
        rcases List.mem_cons.mp hx with rfl | hx
        · exact absurd hxl hc
        · exact ⟨x, hx, hxl⟩
      obtain ⟨k, hk, hs, hl⟩ := ih (s + 1) h1
      refine ⟨k + 1, by simpa using hk, ?_, by simpa using hl⟩
      simp only [ColIdx.scan, hc, if_false, hs]
      congr 1
      omega

theorem ColIdx.scan_not_mem (label : String) (cols : List ColMeta) (s : Nat)
    (h : ∀ c ∈ cols, c.Label ≠ label) : ColIdx.scan label cols s = -1 := by
  induction cols generalizing s with
  | nil => rfl
  | cons c cs ih =>
    have hc : c.Label ≠ label := h c (List.mem_cons_self _ _)
    simp only [ColIdx.scan, hc, if_false]
    exact ih (s + 1) (fun x hx => h x (List.mem_cons_of_mem _ hx))

theorem ColIdx.scan_unique (label : String) (cols : List ColMeta) (s j : Nat)
    (hnd : (cols.map ColMeta.Label).Nodup)
    (hl : (cols[j]?).map ColMeta.Label = some label) :
    ColIdx.scan label cols s = ((s + j : Nat) : Int) := by
  induction cols generalizing s j with
  | nil => simp at hl
  | cons c cs ih =>
    rw [List.map_cons, List.nodup_cons] at hnd
    cases j with
    | zero =>
      have hc : c.Label = label := by simpa using hl
      simp [ColIdx.scan, hc]
    | succ j =>
      have hl1 : (cs[j]?).map ColMeta.Label = some label := by simpa using hl
      have hc : c.Label ≠ label := by
        intro hc
        apply hnd.1
        rw [hc]
        obtain ⟨x, hx, hxl⟩ := Option.map_eq_some'.mp hl1
        exact List.mem_map.mpr ⟨x, List.getElem?_mem hx, hxl⟩
      simp only [ColIdx.scan, hc, if_false, ih (s + 1) j hnd.2 hl1]
      congr 1
      omega

theorem ColIdx_of_mem (label : String) (cols : List ColMeta)
    (h : ∃ c ∈ cols, c.Label = label) :
    ∃ k, k < cols.length ∧ ColIdx label cols = (k : Int) ∧
      (cols[k]?).map ColMeta.Label = some label := by
  obtain ⟨k, hk, hs, hl⟩ := ColIdx.scan_of_mem label cols 0 h
  exact ⟨k, hk, by simpa [ColIdx] using hs, hl⟩

theorem ColIdx_not_mem (label : String) (cols : List ColMeta)
    (h : ∀ c ∈ cols, c.Label ≠ label) : ColIdx label cols = -1 :=
  ColIdx.scan_not_mem label cols 0 h

theorem ColIdx_unique (label : String) (cols : List ColMeta) (j : Nat)
    (hnd : (cols.map ColMeta.Label).Nodup)
    (hl : (cols[j]?).map ColMeta.Label = some label) :
    ColIdx label cols = (j : Int) := by
  simpa [ColIdx] using ColIdx.scan_unique label cols 0 j hnd hl

/-- The first loop of `readTags`, from index `s` for `n` rounds: it returns,
touches only `tags`, and leaves `defs[j]` in `tags[j]` for the indices it ran
over. -/
theorem forEach_assignDef (n s : Nat) (t : Table) (ht : s + n ≤ t.tags.length)
    (hd : s + n ≤ t.defs.length) :
    ∃ tg, forEach readTags.assignDef (List.range' s n) t = .returned { t with tags := tg } ∧
      tg.length = t.tags.length ∧
      ∀ j, tg[j]? = if s ≤ j ∧ j < s + n then t.defs[j]? else t.tags[j]? := by
  induction n generalizing s t with
  | zero =>
    refine ⟨t.tags, by simp [forEach], rfl, ?_⟩
    intro j
    have : ¬ (s ≤ j ∧ j < s) := by omega
    simp [this]
  | succ n ih =>
    have hs : s < t.defs.length := by omega
    obtain ⟨tg, hrun, hlen, hget⟩ := ih (s + 1) { t with tags := t.tags.set s t.defs[s] }
      (by simp; omega) (by simp; omega)
    refine ⟨tg, ?_, by simpa using hlen, ?_⟩
    · rw [List.range'_succ, forEach]
      have hst : s < t.tags.length := by omega
      simp only [readTags.assignDef, List.getElem?_eq_getElem hs, hst, if_true]
      exact hrun
    · intro j
      rw [hget j]
      by_cases h1 : s + 1 ≤ j ∧ j < s + 1 + n
      · have h2 : s ≤ j ∧ j < s + (n + 1) := by omega
        simp [h1, h2]
      · by_cases h3 : j = s
        · subst h3
          have h2 : j ≤ j ∧ j < j + (n + 1) := by omega
          have hjt : j < t.tags.length := by omega
          simp only [h1, h2, if_false, if_true]
          simp [List.getElem?_set, hjt, List.getElem?_eq_getElem hs]
        · have h2 : ¬ (s ≤ j ∧ j < s + (n + 1)) := by omega
          simp only [h1, h2, if_false]
          rw [List.getElem?_set_ne (Ne.symm h3)]

/-- The first loop of `readTags`, run to its end on a table with at least as
many defaults as tags, returns with `tags` equal to the first `len(tags)`
defaults, whatever `tags` held. -/
theorem forEach_assignDef_take (t : Table) (hdefs : t.tags.length ≤ t.defs.length) :
    forEach readTags.assignDef (List.range t.tags.length) t =
      .returned { t with tags := t.defs.take t.tags.length } := by
  obtain ⟨tg, hrun, hlen, hget⟩ := forEach_assignDef t.tags.length 0 t (by omega) (by omega)
  have htg : tg = t.defs.take t.tags.length := by
    apply List.ext_getElem?
    intro j
    rw [hget j, List.getElem?_take]
    by_cases hj : j < t.tags.length
    · simp [hj]
    · have h1 : ¬ (0 ≤ j ∧ j < 0 + t.tags.length) := by omega
      simp only [h1, hj, if_false]
      exact List.getElem?_eq_none (by omega)
  rw [List.range_eq_range', hrun, htg]

/-- The second loop of `readTags` on a tag list whose keys are all declared: it
returns, touches only `tags`, leaves alone every column no tag names, and, when
the labels are distinct, leaves in a named column the value of the last tag of
the list with that key. -/
theorem forEach_assignTag (tags : List Tag) (t : Table) (hlen : t.cols.length ≤ t.tags.length)
    (hkeys : ∀ tag ∈ tags, ∃ c ∈ t.cols, c.Label = tag.Key) :
    ∃ tg, forEach readTags.assignTag tags t = .returned { t with tags := tg } ∧
      tg.length = t.tags.length ∧
      (∀ j : Nat, (∀ tag ∈ tags, (t.cols[j]?).map ColMeta.Label ≠ some tag.Key) →
        tg[j]? = t.tags[j]?) ∧
      ((t.cols.map ColMeta.Label).Nodup → ∀ (j : Nat) (label : String) (tag : Tag),
        (t.cols[j]?).map ColMeta.Label = some label →
        tags.reverse.find? (fun x => decide (x.Key = label)) = some tag →
        tg[j]? = some tag.Value) := by
  induction tags generalizing t with
  | nil => exact ⟨t.tags, by simp [forEach], rfl, fun _ _ => rfl, by simp⟩
  | cons tag rest ih =>
    obtain ⟨k, hk, hidx, hlab⟩ := ColIdx_of_mem tag.Key t.cols (hkeys tag (List.mem_cons_self _ _))
    have hkt : k < t.tags.length := by omega
    obtain ⟨tg, hrun, hlen1, habs, hlast⟩ :=
      ih { t with tags := t.tags.set k tag.Value } (by simpa using hlen)
        (fun x hx => hkeys x (List.mem_cons_of_mem _ hx))
    have habs1 : ∀ j : Nat, (∀ x ∈ rest, (t.cols[j]?).map ColMeta.Label ≠ some x.Key) →
        tg[j]? = (t.tags.set k tag.Value)[j]? := habs
    refine ⟨tg, ?_, by simpa using hlen1, ?_, ?_⟩
    · rw [forEach]
      simp only [readTags.assignTag, hidx, Int.toNat_ofNat, Int.natCast_nonneg, hkt, and_self,
        if_true]
      exact hrun
    · intro j hj
      rw [habs1 j (fun x hx => hj x (List.mem_cons_of_mem _ hx))]
      have hne : k ≠ j := by
        rintro rfl
        exact hj tag (List.mem_cons_self _ _) hlab
      rw [List.getElem?_set_ne hne]
    · intro hnd j label tg0 hj hfind
      rw [List.reverse_cons, List.find?_append] at hfind
      cases hr : rest.reverse.find? (fun x => decide (x.Key = label)) with
      | some x =>
        rw [hr] at hfind
        have hx : x = tg0 := by simpa using hfind
        subst hx
        exact hlast hnd j label x hj hr
      | none =>
        rw [hr] at hfind
        have htag : tag.Key = label ∧ tag = tg0 := by
          by_cases hkl : tag.Key = label
          · simpa [List.find?_cons, hkl] using hfind
          · simp [List.find?_cons, hkl] at hfind
        obtain ⟨hkl, rfl⟩ := htag
        have hnone : ∀ x ∈ rest, (t.cols[j]?).map ColMeta.Label ≠ some x.Key := by
          intro x hx hxe
          have := List.find?_eq_none.mp hr x (List.mem_reverse.mpr hx)
          rw [hj] at hxe
          simp at this
          exact this (Option.some.inj hxe).symm
        rw [habs1 j hnone]
        have hkj : ColIdx tag.Key t.cols = (j : Int) :=
          ColIdx_unique tag.Key t.cols j hnd (by rw [hj, hkl])
        have : k = j := by
          rw [hidx] at hkj
          exact_mod_cast hkj
        subst this
        exact List.getElem?_set_self hkt

/-- The whole of `readTags` on a table whose slices are aligned and a tag list
whose keys are all declared. -/
theorem readTags_returns (t : Table) (tags : List Tag) (htags : t.tags.length = t.cols.length)
    (hdefs : t.tags.length ≤ t.defs.length)
    (hkeys : ∀ tag ∈ tags, ∃ c ∈ t.cols, c.Label = tag.Key) :
    ∃ tg, t.readTags tags = .returned { t with tags := tg } ∧
      tg.length = t.tags.length ∧
      (∀ j : Nat, j < t.tags.length →
        (∀ tag ∈ tags, (t.cols[j]?).map ColMeta.Label ≠ some tag.Key) → tg[j]? = t.defs[j]?) ∧
      ((t.cols.map ColMeta.Label).Nodup → ∀ (j : Nat) (label : String) (tag : Tag),
        (t.cols[j]?).map ColMeta.Label = some label →
        tags.reverse.find? (fun x => decide (x.Key = label)) = some tag →
        tg[j]? = some tag.Value) := by
  obtain ⟨tg1, hrun1, hlen1, hget1⟩ :=
    forEach_assignDef t.tags.length 0 t (by omega) (by omega)
  have hdef : ∀ j : Nat, j < t.tags.length → tg1[j]? = t.defs[j]? := by
    intro j hj
    rw [hget1 j]
    simp [hj]
  unfold Table.readTags
  rw [List.range_eq_range', hrun1]
  simp only [Outcome.andThen]
  by_cases h0 : tags.length = 0
  · have hnil : tags = [] := List.length_eq_zero.mp h0
    subst hnil
    exact ⟨tg1, by simp, hlen1, fun j hj _ => hdef j hj, by simp⟩
  · obtain ⟨tg2, hrun2, hlen2, habs, hlast⟩ :=
      forEach_assignTag tags { t with tags := tg1 } (by simp; omega) hkeys
    refine ⟨tg2, ?_, by simpa [hlen1] using hlen2, ?_, hlast⟩
    · simp only [h0, if_false]
      exact hrun2
    · intro j hj hj2
      have := habs j hj2
      simp only at this
      rw [this, hdef j hj]

/-- Either way the first loop of `readTags` ends, only `tags` has changed. -/
theorem forEach_assignDef_frame (js : List Nat) (t : Table) :
    ∃ tg, forEach readTags.assignDef js t = .returned { t with tags := tg } ∨
      forEach readTags.assignDef js t = .panicked { t with tags := tg } := by
  induction js generalizing t with
  | nil => exact ⟨t.tags, Or.inl rfl⟩
  | cons j js ih =>
    rw [forEach]
    cases hd : t.defs[j]? with
    | none => exact ⟨t.tags, Or.inr (by simp [readTags.assignDef, hd])⟩
    | some d =>
      by_cases hj : j < t.tags.length
      · obtain ⟨tg, h⟩ := ih { t with tags := t.tags.set j d }
        exact ⟨tg, by simpa [readTags.assignDef, hd, hj] using h⟩
      · exact ⟨t.tags, Or.inr (by simp [readTags.assignDef, hd, hj])⟩

/-- The second loop of `readTags` on a tag list with an undeclared key stops
in a panic, and only `tags` has changed by then. -/
theorem forEach_assignTag_stray (tags : List Tag) (t : Table)
    (h : ∃ tag ∈ tags, ∀ c ∈ t.cols, c.Label ≠ tag.Key) :
    ∃ tg, forEach readTags.assignTag tags t = .panicked { t with tags := tg } := by
  induction tags generalizing t with
  | nil => simp at h
  | cons tag rest ih =>
    rw [forEach]
    by_cases hok : 0 ≤ ColIdx tag.Key t.cols ∧ (ColIdx tag.Key t.cols).toNat < t.tags.length
    · have hrest : ∃ x ∈ rest, ∀ c ∈ t.cols, c.Label ≠ x.Key := by
        obtain ⟨x, hx, hxl⟩ := h
        rcases List.mem_cons.mp hx with rfl | hx
        · have := ColIdx_not_mem x.Key t.cols hxl
          rw [this] at hok
          omega
        · exact ⟨x, hx, hxl⟩
      obtain ⟨tg, htg⟩ :=
        ih { t with tags := t.tags.set (ColIdx tag.Key t.cols).toNat tag.Value } hrest
      exact ⟨tg, by simpa [readTags.assignTag, hok] using htg⟩
    · exact ⟨t.tags, by simp only [readTags.assignTag, hok, if_false]⟩

/-- The loop of `appendTags`, from column `s` for `n` rounds: it returns,
touches only `colBufs`, stores `t.l` copies of a non-nil `tags[j]` in
`colBufs[j]`, and leaves every other buffer alone. -/
theorem forEach_appendTagsColumn (n s : Nat) (t : Table) (ht : s + n ≤ t.tags.length)
    (hb : s + n ≤ t.colBufs.length) :
    ∃ bufs, forEach appendTags.column (List.range' s n) t = .returned { t with colBufs := bufs } ∧
      bufs.length = t.colBufs.length ∧
      (∀ (j : Nat) (v : Bytes), s ≤ j → j < s + n → t.tags[j]? = some (some v) →
        bufs[j]? = some (some (ArrowArray.binary (List.replicate t.l v)))) ∧
      (∀ j : Nat, (¬ (s ≤ j ∧ j < s + n) ∨ t.tags[j]? = some none) →
        bufs[j]? = t.colBufs[j]?) := by
  induction n generalizing s t with
  | zero =>
    refine ⟨t.colBufs, by simp [forEach], rfl, ?_, fun _ _ => rfl⟩
    intro j v h1 h2
    omega
  | succ n ih =>
    have hst : s < t.tags.length := by omega
    have hsb : s < t.colBufs.length := by omega
    rw [List.range'_succ, forEach]
    cases hv : t.tags[s] with
    | none =>
      have hs : t.tags[s]? = some none := by rw [List.getElem?_eq_getElem hst, hv]
      obtain ⟨bufs, hrun, hlen, hset, hkeep⟩ := ih (s + 1) t (by omega) (by omega)
      refine ⟨bufs, ?_, hlen, ?_, ?_⟩
      · simp only [appendTags.column, hs]
        exact hrun
      · intro j v h1 h2 hj
        by_cases hjs : j = s
        · subst hjs
          rw [hs] at hj
          simp at hj
        · exact hset j v (by omega) (by omega) hj
      · intro j hj
        by_cases hjs : j = s
        · subst hjs
          exact hkeep j (Or.inl (by omega))
        · rcases hj with hj | hj
          · exact hkeep j (Or.inl (by omega))
          · exact hkeep j (Or.inr hj)
    | some v =>
      have hs : t.tags[s]? = some (some v) := by rw [List.getElem?_eq_getElem hst, hv]
      obtain ⟨bufs, hrun, hlen, hset, hkeep⟩ :=
        ih (s + 1)
          { t with colBufs := t.colBufs.set s (some (ArrowArray.binary (List.replicate t.l v))) }
          (by simpa using (by omega : s + 1 + n ≤ t.tags.length))
          (by simpa using (by omega : s + 1 + n ≤ t.colBufs.length))
      refine ⟨bufs, ?_, by simpa using hlen, ?_, ?_⟩
      · simp only [appendTags.column, hs, hsb, if_true, appendLoop_nil]
        exact hrun
      · intro j w h1 h2 hj
        by_cases hjs : j = s
        · subst hjs
          have hw : v = w := by
            rw [hs] at hj
            simpa using hj
          subst hw
          rw [hkeep j (Or.inl (by omega))]
          exact List.getElem?_set_self hsb
        · exact hset j w (by omega) (by omega) hj
      · intro j hj
        have hjs : s ≠ j := by
          rintro rfl
          rcases hj with hj | hj
          · omega
          · rw [hs] at hj
            simp at hj
        have hk : bufs[j]? =
            (t.colBufs.set s (some (ArrowArray.binary (List.replicate t.l v))))[j]? := by
          rcases hj with hj | hj
          · exact hkeep j (Or.inl (by omega))
          · exact hkeep j (Or.inr hj)
        rw [hk, List.getElem?_set_ne hjs]

/-- The whole of `appendTags` on a table whose `tags` and `colBufs` are aligned
with `cols`. -/
theorem appendTags_returns (t : Table) (htags : t.tags.length = t.cols.length)
    (hbufs : t.colBufs.length = t.cols.length) :
    ∃ bufs, t.appendTags = .returned { t with colBufs := bufs } ∧
      bufs.length = t.colBufs.length ∧
      (∀ (j : Nat) (v : Bytes), t.tags[j]? = some (some v) →
        bufs[j]? = some (some (ArrowArray.binary (List.replicate t.l v)))) ∧
      (∀ j : Nat, (t.tags[j]? = none ∨ t.tags[j]? = some none) → bufs[j]? = t.colBufs[j]?) := by
  obtain ⟨bufs, hrun, hlen, hset, hkeep⟩ :=
    forEach_appendTagsColumn t.cols.length 0 t (by omega) (by omega)
  refine ⟨bufs, ?_, hlen, ?_, ?_⟩
  · rw [Table.appendTags, List.range_eq_range']
    exact hrun
  · intro j v hj
    have hjl : j < t.tags.length := by
      by_contra hc
      rw [List.getElem?_eq_none (by omega)] at hj
      simp at hj
    exact hset j v (by omega) (by omega) hj
  · intro j hj
    rcases hj with hj | hj
    · have hjl : t.tags.length ≤ j := by
        by_contra hc
        rw [List.getElem?_eq_getElem (by omega)] at hj
        simp at hj
      exact hkeep j (Or.inl (by omega))
    · exact hkeep j (Or.inr hj)

/-- The whole of `appendBounds` on a table with at least two column buffers:
whatever the two constants are, the loop runs over the positions 0 and 1. -/
theorem appendBounds_returns (startColIdx stopColIdx : Nat) (t : Table)
    (hbufs : 2 ≤ t.colBufs.length) :
    t.appendBounds startColIdx stopColIdx = .returned
      { t with
        colBufs :=
          List.set (List.set t.colBufs 0 (some (.int64 (List.replicate t.l t.bounds.Start)))) 1
            (some (.int64 (List.replicate t.l t.bounds.Stop))) } := by
  have h0 : 0 < t.colBufs.length := by omega
  have h1 : 1 < t.colBufs.length := by omega
  simp [Table.appendBounds, List.range_succ, forEach, appendBounds.column, appendLoop_nil, h0, h1]

/-- In a tag list with distinct keys, the last tag with the key of a tag of
the list is that tag. -/
theorem find_last_of_nodup_keys (tags : List Tag) (h : (tags.map Tag.Key).Nodup) (tag : Tag)
    (htag : tag ∈ tags) :
    tags.reverse.find? (fun x => decide (x.Key = tag.Key)) = some tag := by
  cases hf : tags.reverse.find? (fun x => decide (x.Key = tag.Key)) with
  | none =>
    have := List.find?_eq_none.mp hf tag (List.mem_reverse.mpr htag)
    simp at this
  | some x =>
    have hx : x ∈ tags := List.mem_reverse.mp (List.mem_of_find?_eq_some hf)
    have hfx : x.Key = tag.Key := by simpa using List.find?_some hf
    rw [List.inj_on_of_nodup_map h hx htag hfx]

/-! ## Tag resolution: `readTags` -/

/-- C1. On a table with `len(tags) = len(cols) = len(defs)` and a tag list whose
keys all name a declared column, `readTags` returns, and every column index `j`
whose label is the key of no tag of the list ends with `tags[j] = defs[j]`. -/
theorem readTags_absent_is_default (t : Table) (tags : List Tag)
    (htags : t.tags.length = t.cols.length) (hdefs : t.cols.length = t.defs.length)
    (hkeys : ∀ tag ∈ tags, ∃ c ∈ t.cols, c.Label = tag.Key) :
    ∃ t1, t.readTags tags = .returned t1 ∧ t1.defs = t.defs ∧ t1.cols = t.cols ∧
      ∀ (j : Nat) (hj : j < t.cols.length), (∀ tag ∈ tags, (t.cols[j]).Label ≠ tag.Key) →
        j < t1.tags.length ∧ t1.tags[j]? = t1.defs[j]? := by
  obtain ⟨tg, hrun, hlen, habs, _⟩ := readTags_returns t tags htags (by omega) hkeys
  refine ⟨{ t with tags := tg }, hrun, rfl, rfl, ?_⟩
  intro j hj hne
  refine ⟨by simp only; omega, ?_⟩
  apply habs j (by omega)
  intro tag htag
  rw [List.getElem?_eq_getElem hj]
  intro he
  exact hne tag htag (by simpa using he)

/-- C1 at the sample table and the tag list `host=a`. -/
theorem readTags_absent_is_default_witness :
    ∃ t1, sampleTable.readTags sampleTags = .returned t1 ∧ t1.defs = sampleTable.defs ∧
      t1.cols = sampleTable.cols ∧
      ∀ (j : Nat) (hj : j < sampleTable.cols.length),
        (∀ tag ∈ sampleTags, (sampleTable.cols[j]).Label ≠ tag.Key) →
        j < t1.tags.length ∧ t1.tags[j]? = t1.defs[j]? :=
  readTags_absent_is_default sampleTable sampleTags (by decide) (by decide) (by decide)

/-- C2, as stated, fails when two tags of the list share a key: with `host=a`
then `host=b` the column `host` ends with `b`, not with the value `a` of the
first of the two tags. The labels are distinct and both keys are declared. -/
theorem readTags_twice_counterexample :
    (sampleTable.cols.map ColMeta.Label).Nodup ∧
      (∀ tag ∈ twiceTags, ∃ c ∈ sampleTable.cols, c.Label = tag.Key) ∧
      sampleTable.readTags twiceTags = .returned
        { sampleTable with tags := [none, none, none, none, some [98], some []] } ∧
      ¬ (∀ tag ∈ twiceTags, ∀ j : Nat,
          (sampleTable.cols[j]?).map ColMeta.Label = some tag.Key →
          (sampleTable.readTags twiceTags).table.tags[j]? = some tag.Value) := by
  refine ⟨by decide, by decide, by decide, ?_⟩
  intro h
  have h4 := h ⟨"host", some [97]⟩ (by decide) 4 (by decide)
  revert h4
  decide

/-- C2, amended. On a table with `len(tags) = len(cols) = len(defs)` and
distinct column labels and a tag list whose keys all name a declared column,
`readTags` returns, and each column `j` whose label is the key of a tag of the
list ends with `tags[j]` equal to the value of the last tag of the list with
that key; when the keys of the list are distinct, that is the value of the one
tag with that key. -/
theorem readTags_present_last_value (t : Table) (tags : List Tag)
    (htags : t.tags.length = t.cols.length) (hdefs : t.cols.length = t.defs.length)
    (hnd : (t.cols.map ColMeta.Label).Nodup)
    (hkeys : ∀ tag ∈ tags, ∃ c ∈ t.cols, c.Label = tag.Key) :
    ∃ t1, t.readTags tags = .returned t1 ∧
      (∀ (j : Nat) (hj : j < t.cols.length) (tag : Tag),
        tags.reverse.find? (fun x => decide (x.Key = (t.cols[j]).Label)) = some tag →
        t1.tags[j]? = some tag.Value) ∧
      ((tags.map Tag.Key).Nodup → ∀ tag ∈ tags, ∀ (j : Nat) (hj : j < t.cols.length),
        (t.cols[j]).Label = tag.Key → t1.tags[j]? = some tag.Value) := by
  obtain ⟨tg, hrun, _, _, hlast⟩ := readTags_returns t tags htags (by omega) hkeys
  refine ⟨{ t with tags := tg }, hrun, ?_, ?_⟩
  · intro j hj tag hfind
    exact hlast hnd j (t.cols[j]).Label tag (by rw [List.getElem?_eq_getElem hj]; rfl) hfind
  · intro hkn tag htag j hj hlab
    exact hlast hnd j tag.Key tag (by rw [List.getElem?_eq_getElem hj, ← hlab]; rfl)
      (find_last_of_nodup_keys tags hkn tag htag)

/-- C2, amended, at the sample table and the tag list `host=a`, `host=b`. -/
theorem readTags_present_last_value_witness :
    ∃ t1, sampleTable.readTags twiceTags = .returned t1 ∧
      (∀ (j : Nat) (hj : j < sampleTable.cols.length) (tag : Tag),
        twiceTags.reverse.find? (fun x => decide (x.Key = (sampleTable.cols[j]).Label)) =
          some tag →
        t1.tags[j]? = some tag.Value) ∧
      ((twiceTags.map Tag.Key).Nodup → ∀ tag ∈ twiceTags,
        ∀ (j : Nat) (hj : j < sampleTable.cols.length),
        (sampleTable.cols[j]).Label = tag.Key → t1.tags[j]? = some tag.Value) :=
  readTags_present_last_value sampleTable twiceTags (by decide) (by decide) (by decide)
    (by decide)

/-- C3, as stated, fails: with the undeclared key `rack` in the tag list,
`readTags` stops in a panic and the table's error is still unset. -/
theorem readTags_stray_counterexample :
    (∃ tag ∈ strayTags, ∀ c ∈ sampleTable.cols, c.Label ≠ tag.Key) ∧
      sampleTable.readTags strayTags = .panicked
        { sampleTable with tags := [none, none, none, none, some [97], some []] } ∧
      (sampleTable.readTags strayTags).table.Err = none := by
  decide

/-- The first loop of `readTags` on a table with fewer defaults than tags,
from an index `s` that still has a default: it stops in a panic at the index
`len(defs)`, with the defaults stored below that index and `tags` as it was
from there on. -/
theorem forEach_assignDef_short (n s : Nat) (t : Table) (ht : s + n ≤ t.tags.length)
    (hs : s ≤ t.defs.length) (hd : t.defs.length < s + n) :
    ∃ tg, forEach readTags.assignDef (List.range' s n) t = .panicked { t with tags := tg } ∧
      tg.length = t.tags.length ∧
      ∀ j : Nat, tg[j]? = if s ≤ j ∧ j < t.defs.length then t.defs[j]? else t.tags[j]? := by
  induction n generalizing s t with
  | zero => omega
  | succ n ih =>
    rw [List.range'_succ, forEach]
    by_cases hsd : s < t.defs.length
    · have hst : s < t.tags.length := by omega
      obtain ⟨tg, hrun, hlen, hget⟩ := ih (s + 1) { t with tags := t.tags.set s t.defs[s] }
        (by simp; omega) (by simp; omega) (by simp; omega)
      refine ⟨tg, ?_, by simpa using hlen, ?_⟩
      · simp only [readTags.assignDef, List.getElem?_eq_getElem hsd, hst, if_true]
        exact hrun
      · intro j
        rw [hget j]
        by_cases h1 : s + 1 ≤ j ∧ j < t.defs.length
        · have h2 : s ≤ j ∧ j < t.defs.length := by omega
          simp [h1, h2]
        · by_cases h3 : j = s
          · subst h3
            have h2 : j ≤ j ∧ j < t.defs.length := by omega
            simp only [h1, h2, if_false, if_true]
            simp [List.getElem?_set, hst, List.getElem?_eq_getElem hsd]
          · have h2 : ¬ (s ≤ j ∧ j < t.defs.length) := by omega
            simp only [h1, h2, if_false]
            rw [List.getElem?_set_ne (Ne.symm h3)]
    · have hnone : t.defs[s]? = none := List.getElem?_eq_none (by omega)
      refine ⟨t.tags, by simp [readTags.assignDef, hnone], rfl, ?_⟩
      intro j
      have h2 : ¬ (s ≤ j ∧ j < t.defs.length) := by omega
      simp [h2]

/-- The second loop of `readTags` on a tag list in which some tag's column
index is out of range: it stops in a panic at the first such tag `bad`, and
`tags` then holds what the tags before `bad` wrote, one after the other. -/
theorem forEach_assignTag_panics (cols : List ColMeta) (n : Nat) (tags : List Tag) (t : Table)
    (hcols : t.cols = cols) (hn : t.tags.length = n)
    (h : ∃ x ∈ tags, ¬ (0 ≤ ColIdx x.Key cols ∧ (ColIdx x.Key cols).toNat < n)) :
    ∃ (pre : List Tag) (bad : Tag) (post : List Tag), tags = pre ++ bad :: post ∧
      (∀ x ∈ pre, 0 ≤ ColIdx x.Key cols ∧ (ColIdx x.Key cols).toNat < n) ∧
      ¬ (0 ≤ ColIdx bad.Key cols ∧ (ColIdx bad.Key cols).toNat < n) ∧
      forEach readTags.assignTag tags t = .panicked
        { t with
          tags := pre.foldl (fun acc x => acc.set (ColIdx x.Key cols).toNat x.Value) t.tags } := by
  induction tags generalizing t with
  | nil => simp at h
  | cons tag rest ih =>
    by_cases hok : 0 ≤ ColIdx tag.Key cols ∧ (ColIdx tag.Key cols).toNat < n
    · have hrest : ∃ x ∈ rest, ¬ (0 ≤ ColIdx x.Key cols ∧ (ColIdx x.Key cols).toNat < n) := by
        obtain ⟨x, hx, hxb⟩ := h
        rcases List.mem_cons.mp hx with rfl | hx
        · exact absurd hok hxb
        · exact ⟨x, hx, hxb⟩
      obtain ⟨pre, bad, post, hsplit, hpre, hbad, hrun⟩ :=
        ih { t with tags := t.tags.set (ColIdx tag.Key cols).toNat tag.Value } hcols
          (by simpa using hn) hrest
      refine ⟨tag :: pre, bad, post, by rw [hsplit]; rfl, ?_, hbad, ?_⟩
      · intro x hx
        rcases List.mem_cons.mp hx with rfl | hx
        · exact hok
        · exact hpre x hx
      · subst hcols hn
        rw [forEach]
        simp only [readTags.assignTag, hok, and_self, if_true]
        exact hrun
    · refine ⟨[], tag, rest, rfl, by simp, hok, ?_⟩
      subst hcols hn
      rw [forEach]
      simp only [readTags.assignTag, hok, if_false]
      rfl

/-- C3, amended. On every table, a tag list holding a tag whose key matches no
declared column label makes `readTags` stop in a run-time panic; nothing but
`tags` has changed by then, so `Err()` is what it was before the call. The
panic is at the first tag `bad` whose column index is out of range (the -1 of
an undeclared key included): the tags `pre` before it all have declared keys,
and `tags` holds the defaults overwritten, in order, by the values of `pre`
alone, so neither `bad` nor any tag after it is stored. (On a table with fewer
defaults than tags the panic is in the first loop already, and `tags` holds the
defaults followed by its own old tail.) -/
theorem readTags_stray_key_panics (t : Table) (tags : List Tag)
    (h : ∃ tag ∈ tags, ∀ c ∈ t.cols, c.Label ≠ tag.Key) :
    ∃ t1, t.readTags tags = .panicked t1 ∧ t1.Err = t.Err ∧
      t1 = { t with tags := t1.tags } ∧
      ((t.defs.length < t.tags.length ∧ t1.tags = t.defs ++ t.tags.drop t.defs.length) ∨
        (t.tags.length ≤ t.defs.length ∧
          ∃ (pre : List Tag) (bad : Tag) (post : List Tag), tags = pre ++ bad :: post ∧
            (∀ x ∈ pre, (∃ c ∈ t.cols, c.Label = x.Key) ∧
              0 ≤ ColIdx x.Key t.cols ∧ (ColIdx x.Key t.cols).toNat < t.tags.length) ∧
            ¬ (0 ≤ ColIdx bad.Key t.cols ∧ (ColIdx bad.Key t.cols).toNat < t.tags.length) ∧
            t1.tags = pre.foldl (fun acc x => acc.set (ColIdx x.Key t.cols).toNat x.Value)
              (t.defs.take t.tags.length))) := by
  have hne : tags.length ≠ 0 := by
    obtain ⟨tag, htag, _⟩ := h
    exact List.length_pos_iff_exists_mem.mpr ⟨tag, htag⟩ |> Nat.pos_iff_ne_zero.mp
  by_cases hd : t.defs.length < t.tags.length
  · obtain ⟨tg, hrun, hlen, hget⟩ :=
      forEach_assignDef_short t.tags.length 0 t (by omega) (by omega) (by omega)
    have htg : tg = t.defs ++ t.tags.drop t.defs.length := by
      apply List.ext_getElem?
      intro j
      rw [hget j]
      by_cases hj : j < t.defs.length
      · have h2 : 0 ≤ j ∧ j < t.defs.length := by omega
        simp only [h2, and_self, if_true]
        rw [List.getElem?_append_left hj]
      · have h2 : ¬ (0 ≤ j ∧ j < t.defs.length) := by omega
        simp only [h2, if_false]
        rw [List.getElem?_append_right (by omega), List.getElem?_drop]
        congr 1
        omega
    refine ⟨{ t with tags := tg }, ?_, rfl, rfl, Or.inl ⟨hd, htg⟩⟩
    unfold Table.readTags
    rw [List.range_eq_range', hrun]
    rfl
  · have h1 := forEach_assignDef_take t (by omega)
    have hbadx : ∃ x ∈ tags, ¬ (0 ≤ ColIdx x.Key t.cols ∧
        (ColIdx x.Key t.cols).toNat < t.tags.length) := by
      obtain ⟨tag, htag, hno⟩ := h
      refine ⟨tag, htag, ?_⟩
      rw [ColIdx_not_mem tag.Key t.cols hno]
      omega
    obtain ⟨pre, bad, post, hsplit, hpre, hbad, hrun⟩ :=
      forEach_assignTag_panics t.cols t.tags.length tags
        { t with tags := t.defs.take t.tags.length } rfl
        (by simp only [List.length_take]; omega) hbadx
    refine ⟨{ t with
        tags := pre.foldl (fun acc x => acc.set (ColIdx x.Key t.cols).toNat x.Value)
          (t.defs.take t.tags.length) },
      ?_, rfl, rfl, Or.inr ⟨by omega, pre, bad, post, hsplit, ?_, hbad, rfl⟩⟩
    · unfold Table.readTags
      rw [h1]
      simp only [Outcome.andThen, hne, if_false]
      exact hrun
    · intro x hx
      refine ⟨?_, hpre x hx⟩
      by_contra hno
      have hno1 : ∀ c ∈ t.cols, c.Label ≠ x.Key := by
        intro c hc hl
        exact hno ⟨c, hc, hl⟩
      have h0 := (hpre x hx).1
      rw [ColIdx_not_mem x.Key t.cols hno1] at h0
      omega

/-- C3, amended, at the sample table and the tag list `host=a`, `rack=1`:
the panic leaves `host` set to `a` and nothing of `rack`. -/
theorem readTags_stray_key_panics_witness :
    (∃ tag ∈ strayTags, ∀ c ∈ sampleTable.cols, c.Label ≠ tag.Key) ∧
      ∃ t1, sampleTable.readTags strayTags = .panicked t1 ∧ t1.Err = sampleTable.Err ∧
        t1 = { sampleTable with tags := t1.tags } ∧
        ((sampleTable.defs.length < sampleTable.tags.length ∧
            t1.tags = sampleTable.defs ++ sampleTable.tags.drop sampleTable.defs.length) ∨
          (sampleTable.tags.length ≤ sampleTable.defs.length ∧
            ∃ (pre : List Tag) (bad : Tag) (post : List Tag), strayTags = pre ++ bad :: post ∧
              (∀ x ∈ pre, (∃ c ∈ sampleTable.cols, c.Label = x.Key) ∧
                0 ≤ ColIdx x.Key sampleTable.cols ∧
                (ColIdx x.Key sampleTable.cols).toNat < sampleTable.tags.length) ∧
              ¬ (0 ≤ ColIdx bad.Key sampleTable.cols ∧
                (ColIdx bad.Key sampleTable.cols).toNat < sampleTable.tags.length) ∧
              t1.tags =
                pre.foldl (fun acc x => acc.set (ColIdx x.Key sampleTable.cols).toNat x.Value)
                  (sampleTable.defs.take sampleTable.tags.length))) :=
  ⟨by decide, readTags_stray_key_panics sampleTable strayTags (by decide)⟩

/-! ## Replication: `appendTags` and `appendBounds` -/

/-- C4. On a table of length `N` whose `tags` and `colBufs` are aligned with
`cols` (as `newTable` makes them), `appendTags` returns, keeps the length, and
for every column `j` whose resolved tag value `v` is non-nil the buffer
`colBufs[j]` is a text array of exactly `N` elements, each equal to `v`. -/
theorem appendTags_replicates (t : Table) (htags : t.tags.length = t.cols.length)
    (hbufs : t.colBufs.length = t.cols.length) :
    ∃ t1, t.appendTags = .returned t1 ∧ t1.Len = t.Len ∧ t1.tags = t.tags ∧
      ∀ (j : Nat) (v : Bytes), j < t.cols.length → t.tags[j]? = some (some v) →
        t1.colBufs[j]? = some (some (ArrowArray.binary (List.replicate t.Len v))) := by
  obtain ⟨bufs, hrun, _, hset, _⟩ := appendTags_returns t htags hbufs
  exact ⟨{ t with colBufs := bufs }, hrun, rfl, rfl, fun j v _ hj => hset j v hj⟩

/-- C4 at the sample table of length 3 with `host` resolved to `a`. -/
theorem appendTags_replicates_witness :
    ∃ t1, (Table.appendTags { sampleTable3 with tags := [none, none, none, none, some [97], none] })
        = .returned t1 ∧
      t1.colBufs[4]? = some (some (ArrowArray.binary [[97], [97], [97]])) := by
  obtain ⟨t1, hrun, _, _, h⟩ := appendTags_replicates
    { sampleTable3 with tags := [none, none, none, none, some [97], none] } (by decide) (by decide)
  exact ⟨t1, hrun, h 4 [97] (by decide) (by decide)⟩

/-- C5. With the reserved indices `startColIdx = 0` and `stopColIdx = 1` (the
positions the loop of `appendBounds` runs over), on a table of length `N` with
at least two columns and one buffer per column, `appendBounds` returns, keeps
the length, and leaves `N` copies of the start bound in the start column buffer
and `N` copies of the stop bound in the stop column buffer, as int64 arrays. -/
theorem appendBounds_replicates (startColIdx stopColIdx : Nat) (t : Table)
    (hstart : startColIdx = 0) (hstop : stopColIdx = 1)
    (hbufs : t.colBufs.length = t.cols.length) (hcols : 2 ≤ t.cols.length) :
    ∃ t1, t.appendBounds startColIdx stopColIdx = .returned t1 ∧ t1.Len = t.Len ∧
      t1.colBufs[startColIdx]? =
        some (some (ArrowArray.int64 (List.replicate t.Len t.bounds.Start))) ∧
      t1.colBufs[stopColIdx]? =
        some (some (ArrowArray.int64 (List.replicate t.Len t.bounds.Stop))) := by
  subst hstart hstop
  have h0 : 0 < t.colBufs.length := by omega
  have h1 : 1 < t.colBufs.length := by omega
  refine ⟨_, appendBounds_returns 0 1 t (by omega), rfl, ?_, ?_⟩
  · simp [Table.Len, List.getElem?_set, h0]
  · simp [Table.Len, List.getElem?_set, h1]

/-- C5 at the sample table of length 3 with bounds 100 and 200. -/
theorem appendBounds_replicates_witness :
    ∃ t1, sampleTable3.appendBounds 0 1 = .returned t1 ∧ t1.Len = sampleTable3.Len ∧
      t1.colBufs[0]? =
        some (some (ArrowArray.int64 (List.replicate sampleTable3.Len sampleTable3.bounds.Start))) ∧
      t1.colBufs[1]? =
        some (some (ArrowArray.int64 (List.replicate sampleTable3.Len sampleTable3.bounds.Stop))) :=
  appendBounds_replicates 0 1 sampleTable3 rfl rfl (by decide) (by decide)

/-- C6, as stated, fails: `region` is absent from the tag list `host=a`, and
after `readTags` and `appendTags` on a table of length 3 its buffer is
populated, with three copies of the default: three empty strings for the
non-nil empty default, three copies of `-` for the default `-`. -/
theorem appendTags_default_counterexample :
    (∀ tag ∈ sampleTags, (sampleCols[5]?).map ColMeta.Label ≠ some tag.Key) ∧
      sampleTable3.colBufs[5]? = some none ∧
      ((sampleTable3.readTags sampleTags).andThen Table.appendTags).table.colBufs[5]? =
        some (some (ArrowArray.binary [[], [], []])) ∧
      ((dashTable3.readTags sampleTags).andThen Table.appendTags).table.colBufs[5]? =
        some (some (ArrowArray.binary [[45], [45], [45]])) := by
  decide

/-- C6, amended. On a table with aligned slices and a tag list whose keys all
name a declared column, `readTags` followed by `appendTags` returns, and for a
column `j` whose label is the key of no tag of the list: when the default
`defs[j]` is nil, `colBufs[j]` is the buffer it was before; when the default is
a non-nil `d` (the empty string included), `colBufs[j]` is a text array of `N`
copies of `d`. -/
theorem readTags_appendTags_absent (t : Table) (tags : List Tag)
    (htags : t.tags.length = t.cols.length) (hdefs : t.cols.length = t.defs.length)
    (hbufs : t.colBufs.length = t.cols.length)
    (hkeys : ∀ tag ∈ tags, ∃ c ∈ t.cols, c.Label = tag.Key)
    (j : Nat) (hj : j < t.cols.length) (habs : ∀ tag ∈ tags, (t.cols[j]).Label ≠ tag.Key) :
    ∃ t2, (t.readTags tags).andThen Table.appendTags = .returned t2 ∧
      (t.defs[j]? = some none → t2.colBufs[j]? = t.colBufs[j]?) ∧
      (∀ d : Bytes, t.defs[j]? = some (some d) →
        t2.colBufs[j]? = some (some (ArrowArray.binary (List.replicate t.Len d)))) := by
  obtain ⟨tg, hrun, hlen, hdef, _⟩ := readTags_returns t tags htags (by omega) hkeys
  have hjd : tg[j]? = t.defs[j]? := by
    apply hdef j (by omega)
    intro tag htag
    rw [List.getElem?_eq_getElem hj]
    intro he
    exact habs tag htag (by simpa using he)
  obtain ⟨bufs, hrun2, _, hset, hkeep⟩ :=
    appendTags_returns { t with tags := tg } (by simpa [htags] using hlen) hbufs
  refine ⟨{ t with tags := tg, colBufs := bufs }, ?_, ?_, ?_⟩
  · rw [hrun]
    exact hrun2
  · intro hnil
    exact hkeep j (Or.inr (by rw [← hnil]; exact hjd))
  · intro d hd
    exact hset j d (by rw [← hd]; exact hjd)

/-- C6, amended, at the sample table of length 3 and its column `region`. -/
theorem readTags_appendTags_absent_witness :
    ∃ t2, (sampleTable3.readTags sampleTags).andThen Table.appendTags = .returned t2 ∧
      (sampleTable3.defs[5]? = some none → t2.colBufs[5]? = sampleTable3.colBufs[5]?) ∧
      (∀ d : Bytes, sampleTable3.defs[5]? = some (some d) →
        t2.colBufs[5]? = some (some (ArrowArray.binary (List.replicate sampleTable3.Len d)))) :=
  readTags_appendTags_absent sampleTable3 sampleTags (by decide) (by decide) (by decide)
    (by decide) 5 (by decide) (by decide)

/-! ## Row counts after a refill cycle -/

/-- C7, as stated, fails. From a fresh table whose defaults are nil, a first
cycle for the series `host=a, region=w` with 3 rows, then a second cycle for the
series `host=b` with 2 rows: both return, `Len()` is 2, and the buffer of the
tag column `region` is still the 3-row array of the first cycle. -/
theorem refill_stale_counterexample :
    (∀ tag ∈ hostTags, ∃ c ∈ nilDefsTable.cols, c.Label = tag.Key) ∧
      ((nilDefsTable.refill 0 1 bothTags 3).andThen fun t1 =>
        t1.refill 0 1 hostTags 2).isReturned = true ∧
      ((nilDefsTable.refill 0 1 bothTags 3).andThen fun t1 =>
        t1.refill 0 1 hostTags 2).table.Len = 2 ∧
      ((nilDefsTable.refill 0 1 bothTags 3).andThen fun t1 =>
        t1.refill 0 1 hostTags 2).table.colBufs[5]? =
          some (some (ArrowArray.binary [[119], [119], [119]])) ∧
      (ArrowArray.binary [[119], [119], [119]]).Len = 3 := by
  decide

/-- C7, amended. With `startColIdx = 0` and `stopColIdx = 1`, on a table with
at least two columns whose `tags`, `defs` and `colBufs` are aligned with `cols`,
whatever its buffers and length were, and a tag list whose keys all name a
declared column, the cycle `readTags`, length := `n`, `appendTags`,
`appendBounds` returns with `Len() = n`; the two bounds buffers and the buffer
of every column whose resolved tag value is non-nil hold an array of exactly
`n` rows; the buffer of any other column whose resolved value is nil is the one
the table had before the cycle. -/
theorem refill_row_counts (startColIdx stopColIdx : Nat) (t : Table) (tags : List Tag) (n : Nat)
    (hstart : startColIdx = 0) (hstop : stopColIdx = 1)
    (htags : t.tags.length = t.cols.length) (hdefs : t.cols.length = t.defs.length)
    (hbufs : t.colBufs.length = t.cols.length) (hcols : 2 ≤ t.cols.length)
    (hkeys : ∀ tag ∈ tags, ∃ c ∈ t.cols, c.Label = tag.Key) :
    ∃ t3, t.refill startColIdx stopColIdx tags n = .returned t3 ∧ t3.Len = n ∧
      (∀ j : Nat, (j = startColIdx ∨ j = stopColIdx ∨
          (j < t.cols.length ∧ t3.tags[j]? ≠ some none)) →
        ∃ a, t3.colBufs[j]? = some (some a) ∧ a.Len = n) ∧
      (∀ j : Nat, j ≠ startColIdx → j ≠ stopColIdx → t3.tags[j]? = some none →
        t3.colBufs[j]? = t.colBufs[j]?) := by
  subst hstart hstop
  obtain ⟨tg, hrun1, hlen1, _, _⟩ := readTags_returns t tags htags (by omega) hkeys
  obtain ⟨bufs, hrun2, hlen2, hset, hkeep⟩ :=
    appendTags_returns { t with tags := tg, l := n } (by simpa [htags] using hlen1) hbufs
  have hlen2 : bufs.length = t.colBufs.length := hlen2
  have hset : ∀ (j : Nat) (v : Bytes), tg[j]? = some (some v) →
      bufs[j]? = some (some (ArrowArray.binary (List.replicate n v))) := hset
  have hkeep : ∀ j : Nat, (tg[j]? = none ∨ tg[j]? = some none) → bufs[j]? = t.colBufs[j]? :=
    hkeep
  have hb2 : 2 ≤ bufs.length := by omega
  have hrun3 := appendBounds_returns 0 1 { t with tags := tg, l := n, colBufs := bufs } hb2
  refine ⟨{ t with
      tags := tg
      l := n
      colBufs :=
        List.set (List.set bufs 0 (some (.int64 (List.replicate n t.bounds.Start)))) 1
          (some (.int64 (List.replicate n t.bounds.Stop))) }, ?_, rfl, ?_, ?_⟩
  · unfold Table.refill
    rw [hrun1]
    simp only [Outcome.andThen]
    rw [hrun2]
    exact hrun3
  · intro j hj
    by_cases h0 : j = 0
    · subst h0
      refine ⟨ArrowArray.int64 (List.replicate n t.bounds.Start), ?_, by simp [ArrowArray.Len]⟩
      show (List.set (List.set bufs 0 _) 1 _)[0]? = _
      rw [List.getElem?_set_ne (by decide), List.getElem?_set_self (by omega)]
    · by_cases h1 : j = 1
      · subst h1
        refine ⟨ArrowArray.int64 (List.replicate n t.bounds.Stop), ?_, by simp [ArrowArray.Len]⟩
        show (List.set (List.set bufs 0 _) 1 _)[1]? = _
        rw [List.getElem?_set_self (by rw [List.length_set]; omega)]
      · rcases hj with hj | hj | ⟨hjc, hjt⟩
        · exact absurd hj h0
        · exact absurd hj h1
        · have hjt1 : tg[j]? ≠ some none := hjt
          have hjl : j < tg.length := by omega
          rw [List.getElem?_eq_getElem hjl] at hjt1
          cases hv : tg[j] with
          | none => rw [hv] at hjt1; exact absurd rfl hjt1
          | some v =>
            refine ⟨ArrowArray.binary (List.replicate n v), ?_, by simp [ArrowArray.Len]⟩
            show (List.set (List.set bufs 0 _) 1 _)[j]? = _
            rw [List.getElem?_set_ne (Ne.symm h1), List.getElem?_set_ne (Ne.symm h0)]
            apply hset j v
            rw [List.getElem?_eq_getElem hjl, hv]
  · intro j h0 h1 hnil
    show (List.set (List.set bufs 0 _) 1 _)[j]? = _
    rw [List.getElem?_set_ne (Ne.symm h1), List.getElem?_set_ne (Ne.symm h0)]
    exact hkeep j (Or.inr hnil)

/-- C7, amended, at the sample table, the tag list `host=a` and 3 rows. -/
theorem refill_row_counts_witness :
    ∃ t3, sampleTable.refill 0 1 sampleTags 3 = .returned t3 ∧ t3.Len = 3 ∧
      (∀ j : Nat, (j = 0 ∨ j = 1 ∨ (j < sampleTable.cols.length ∧ t3.tags[j]? ≠ some none)) →
        ∃ a, t3.colBufs[j]? = some (some a) ∧ a.Len = 3) ∧
      (∀ j : Nat, j ≠ 0 → j ≠ 1 → t3.tags[j]? = some none →
        t3.colBufs[j]? = sampleTable.colBufs[j]?) :=
  refill_row_counts 0 1 sampleTable sampleTags 3 rfl rfl (by decide) (by decide) (by decide)
    (by decide) (by decide)

/-! ## Typed accessors -/

/-- C8. For each of the six typed accessors and every in-range column index `j`
whose declared type differs from the accessor's type, the call does not return
a buffer: it ends in the panic of `CheckColType`, which is determined by the
column's metadata and the accessor's type alone, so it is the same on every
call with the same table and `j`. -/
theorem typed_accessor_mismatch (t : Table) (j : Nat) (hj : j < t.cols.length) :
    ((t.cols[j]).Typ ≠ .TBool → t.Bools j = .error (.colType t.cols[j] .TBool)) ∧
      ((t.cols[j]).Typ ≠ .TInt → t.Ints j = .error (.colType t.cols[j] .TInt)) ∧
      ((t.cols[j]).Typ ≠ .TUInt → t.UInts j = .error (.colType t.cols[j] .TUInt)) ∧
      ((t.cols[j]).Typ ≠ .TFloat → t.Floats j = .error (.colType t.cols[j] .TFloat)) ∧
      ((t.cols[j]).Typ ≠ .TString → t.Strings j = .error (.colType t.cols[j] .TString)) ∧
      ((t.cols[j]).Typ ≠ .TTime → t.Times j = .error (.colType t.cols[j] .TTime)) := by
  have hc : t.cols[j]? = some t.cols[j] := List.getElem?_eq_getElem hj
  refine ⟨?_, ?_, ?_, ?_, ?_, ?_⟩ <;> intro hne
  · simp [Table.Bools, Table.typed, hc, CheckColType, hne]
  · simp [Table.Ints, Table.typed, hc, CheckColType, hne]
  · simp [Table.UInts, Table.typed, hc, CheckColType, hne]
  · simp [Table.Floats, Table.typed, hc, CheckColType, hne]
  · simp [Table.Strings, Table.typed, hc, CheckColType, hne]
  · simp [Table.Times, Table.typed, hc, CheckColType, hne]

/-- C8 at the integer column `_value` of the sample table, read through
`Bools` and through `Times`. -/
theorem typed_accessor_mismatch_witness :
    sampleTable.Bools 3 = .error (.colType ⟨"_value", .TInt⟩ .TBool) ∧
      sampleTable.Times 3 = .error (.colType ⟨"_value", .TInt⟩ .TTime) :=
  ⟨(typed_accessor_mismatch sampleTable 3 (by decide)).1 (by decide),
    (typed_accessor_mismatch sampleTable 3 (by decide)).2.2.2.2.2 (by decide)⟩

/-! ## Completion channel and cancellation -/

/-- Once the `done` field is nil, any number of `closeDone` calls leaves the
table and the closed channels as they are. -/
theorem closeDoneTimes_of_done_nil (n : Nat) (t : Table) (closed : List Chan)
    (h : t.done = none) : t.closeDoneTimes n closed = some (t, closed) := by
  induction n with
  | zero => rfl
  | succ n ih => simp [Table.closeDoneTimes, Table.closeDone, h, ih]

/-- C9. For every table, every set of channels closed so far and every number
`n` of `closeDone` calls: a first `closeDone` on a table whose `done` channel is
set (and still open) closes that channel and clears the field; after any
`closeDone` that returned, the field is nil and `n` further calls close nothing
and leave the table unchanged; and a sequence of `n` calls that returns has
closed nothing or has closed the table's channel, once. -/
theorem closeDone_at_most_once (t : Table) (closed : List Chan) (n : Nat) :
    (∀ c, t.done = some c → c ∉ closed →
        t.closeDone closed = some ({ t with done := none }, c :: closed)) ∧
      (∀ t1 closed1, t.closeDone closed = some (t1, closed1) →
        t1.done = none ∧ t1.closeDoneTimes n closed1 = some (t1, closed1)) ∧
      (∀ t2 closed2, t.closeDoneTimes n closed = some (t2, closed2) →
        (t2 = t ∧ closed2 = closed) ∨
          ∃ c, t.done = some c ∧ c ∉ closed ∧ t2 = { t with done := none } ∧
            closed2 = c :: closed) := by
  have hfirst : ∀ t1 closed1, t.closeDone closed = some (t1, closed1) →
      t1.done = none ∧
        ((t1 = t ∧ closed1 = closed) ∨
          ∃ c, t.done = some c ∧ c ∉ closed ∧ t1 = { t with done := none } ∧
            closed1 = c :: closed) := by
    intro t1 closed1 h
    cases hd : t.done with
    | none =>
      simp only [Table.closeDone, hd, Option.some.injEq, Prod.mk.injEq] at h
      obtain ⟨rfl, rfl⟩ := h
      exact ⟨hd, Or.inl ⟨rfl, rfl⟩⟩
    | some c =>
      by_cases hc : c ∈ closed
      · simp [Table.closeDone, hd, closeChan, hc] at h
      · simp only [Table.closeDone, hd, closeChan, hc, if_false, Option.some.injEq,
          Prod.mk.injEq] at h
        obtain ⟨rfl, rfl⟩ := h
        exact ⟨rfl, Or.inr ⟨c, rfl, hc, rfl, rfl⟩⟩
  refine ⟨?_, ?_, ?_⟩
  · intro c hd hc
    simp [Table.closeDone, hd, closeChan, hc]
  · intro t1 closed1 h
    exact ⟨(hfirst t1 closed1 h).1, closeDoneTimes_of_done_nil n t1 closed1 (hfirst t1 closed1 h).1⟩
  · intro t2 closed2 h
    cases n with
    | zero =>
      simp only [Table.closeDoneTimes, Option.some.injEq, Prod.mk.injEq] at h
      exact Or.inl ⟨h.1.symm, h.2.symm⟩
    | succ n =>
      rw [Table.closeDoneTimes] at h
      cases h1 : t.closeDone closed with
      | none => simp [h1] at h
      | some r =>
        obtain ⟨t1, closed1⟩ := r
        rw [h1] at h
        simp only at h
        obtain ⟨hnil, hcase⟩ := hfirst t1 closed1 h1
        rw [closeDoneTimes_of_done_nil n t1 closed1 hnil] at h
        simp only [Option.some.injEq, Prod.mk.injEq] at h
        obtain ⟨rfl, rfl⟩ := h
        exact hcase

/-- C9 at the sample table, whose channel 7 is open: the first call closes it,
three more calls change nothing. -/
theorem closeDone_at_most_once_witness :
    sampleTable.closeDone [] = some ({ sampleTable with done := none }, [7]) ∧
      Table.closeDoneTimes 3 { sampleTable with done := none } [7] =
        some ({ sampleTable with done := none }, [7]) :=
  ⟨(closeDone_at_most_once sampleTable [] 3).1 7 (by decide) (by decide),
    ((closeDone_at_most_once sampleTable [] 3).2.1 _ _
      ((closeDone_at_most_once sampleTable [] 3).1 7 (by decide) (by decide))).2⟩

/-- C10. For every table state, calling `Cancel` any number of times at least
once gives the state that calling it once gives, and `isCancelled()` is true
in that state. -/
theorem Cancel_idempotent (t : Table) (n : Nat) :
    Table.Cancel^[n + 1] t = t.Cancel ∧ t.Cancel.Cancel = t.Cancel ∧
      t.Cancel.isCancelled = true := by
  refine ⟨?_, rfl, rfl⟩
  induction n with
  | zero => rfl
  | succ n ih =>
    rw [Function.iterate_succ_apply', ih]
    rfl

/-! ## Frame lemmas -/

/-- A property that every round of a loop carries from the table before to the
table after (returned or panicked) holds of the table the loop leaves. -/
theorem forEach_invariant {α : Type} (I : Table → Prop) (body : α → Table → Outcome)
    (xs : List α) (hbody : ∀ x ∈ xs, ∀ t, I t → I (body x t).table) (t : Table) (h : I t) :
    I (forEach body xs t).table := by
  induction xs generalizing t with
  | nil => exact h
  | cons x xs ih =>
    have hx := hbody x (List.mem_cons_self _ _) t h
    rw [forEach]
    cases hb : body x t with
    | returned t1 =>
      rw [hb] at hx
      exact ih (fun y hy => hbody y (List.mem_cons_of_mem _ hy)) t1 hx
    | panicked t1 =>
      rw [hb] at hx
      exact hx

theorem assignDef_layout (j : Nat) (t : Table) :
    (readTags.assignDef j t).table.layout = t.layout := by
  unfold readTags.assignDef
  cases t.defs[j]? with
  | none => rfl
  | some d =>
    by_cases hj : j < t.tags.length
    · simp [hj, Outcome.table, Table.layout]
    · simp [hj, Outcome.table]

theorem assignTag_layout (tag : Tag) (t : Table) :
    (readTags.assignTag tag t).table.layout = t.layout := by
  unfold readTags.assignTag
  by_cases h : 0 ≤ ColIdx tag.Key t.cols ∧ (ColIdx tag.Key t.cols).toNat < t.tags.length
  · simp [h, Outcome.table, Table.layout]
  · simp [h, Outcome.table]

theorem appendTagsColumn_layout (j : Nat) (t : Table) :
    (appendTags.column j t).table.layout = t.layout := by
  unfold appendTags.column
  cases t.tags[j]? with
  | none => rfl
  | some v =>
    cases v with
    | none => rfl
    | some v =>
      by_cases hj : j < t.colBufs.length
      · simp [hj, Outcome.table, Table.layout]
      · simp [hj, Outcome.table]

theorem appendBoundsColumn_layout (bounds : List Int) (j : Nat) (t : Table) :
    (appendBounds.column bounds j t).table.layout = t.layout := by
  unfold appendBounds.column
  cases bounds[j]? with
  | none => rfl
  | some b =>
    by_cases hj : j < t.colBufs.length
    · simp [hj, Outcome.table, Table.layout]
    · simp [hj, Outcome.table]

/-- Whatever `readTags` does, returning or not, the layout is kept. -/
theorem readTags_layout (t : Table) (tags : List Tag) :
    (t.readTags tags).table.layout = t.layout := by
  have h1 : (forEach readTags.assignDef (List.range t.tags.length) t).table.layout = t.layout :=
    forEach_invariant (fun t1 => t1.layout = t.layout) readTags.assignDef _
      (fun j _ t1 h => (assignDef_layout j t1).trans h) t rfl
  unfold Table.readTags
  cases ho : forEach readTags.assignDef (List.range t.tags.length) t with
  | panicked t1 =>
    rw [ho] at h1
    exact h1
  | returned t1 =>
    rw [ho] at h1
    simp only [Outcome.andThen]
    by_cases h0 : tags.length = 0
    · simp only [h0, if_true]
      exact h1
    · simp only [h0, if_false]
      exact forEach_invariant (fun t2 => t2.layout = t.layout) readTags.assignTag _
        (fun tag _ t2 h => (assignTag_layout tag t2).trans h) t1 h1

/-- Whatever `appendTags` does, returning or not, the layout is kept. -/
theorem appendTags_layout (t : Table) : t.appendTags.table.layout = t.layout :=
  forEach_invariant (fun t1 => t1.layout = t.layout) appendTags.column _
    (fun j _ t1 h => (appendTagsColumn_layout j t1).trans h) t rfl

/-- Whatever `appendBounds` does, returning or not, the layout is kept. -/
theorem appendBounds_layout (startColIdx stopColIdx : Nat) (t : Table) :
    (t.appendBounds startColIdx stopColIdx).table.layout = t.layout :=
  forEach_invariant (fun t1 => t1.layout = t.layout) (appendBounds.column _) _
    (fun j _ t1 h => (appendBoundsColumn_layout _ j t1).trans h) t rfl

/-- A `closeDone` that returns keeps the layout. -/
theorem closeDone_layout (t : Table) (closed : List Chan) (t1 : Table) (closed1 : List Chan)
    (h : t.closeDone closed = some (t1, closed1)) : t1.layout = t.layout := by
  cases hd : t.done with
  | none =>
    simp only [Table.closeDone, hd, Option.some.injEq, Prod.mk.injEq] at h
    rw [← h.1]
  | some c =>
    cases hc : closeChan c closed with
    | none => simp [Table.closeDone, hd, hc] at h
    | some w =>
      simp only [Table.closeDone, hd, hc, Option.some.injEq, Prod.mk.injEq] at h
      rw [← h.1]
      rfl

/-- Every call keeps the layout. -/
theorem Op.run_layout (startColIdx stopColIdx : Nat) (op : Op) (st : Table × List Chan) :
    (op.run startColIdx stopColIdx st).1.layout = st.1.layout := by
  obtain ⟨t, closed⟩ := st
  cases op with
  | readTags tags => exact readTags_layout t tags
  | appendTags => exact appendTags_layout t
  | appendBounds => exact appendBounds_layout startColIdx stopColIdx t
  | Cancel => rfl
  | closeDone =>
    simp only [Op.run]
    cases h : t.closeDone closed with
    | none => rfl
    | some r =>
      obtain ⟨t1, closed1⟩ := r
      exact closeDone_layout t closed t1 closed1 h
  | Retain => rfl
  | Release => rfl
  | Bools j => rfl
  | Ints j => rfl
  | UInts j => rfl
  | Floats j => rfl
  | Strings j => rfl
  | Times j => rfl

/-- Every sequence of calls keeps the layout. -/
theorem runOps_layout (startColIdx stopColIdx : Nat) (ops : List Op) (st : Table × List Chan) :
    (runOps startColIdx stopColIdx ops st).1.layout = st.1.layout := by
  induction ops generalizing st with
  | nil => rfl
  | cons op ops ih =>
    rw [runOps, List.foldl_cons]
    exact (ih (op.run startColIdx stopColIdx st)).trans (Op.run_layout _ _ op st)

/-- Equal layouts give equal lengths of the four slices. -/
theorem lengths_of_layout (t t1 : Table) (h : t1.layout = t.layout) : t1.lengths = t.lengths := by
  simp only [Table.layout, Prod.mk.injEq] at h
  obtain ⟨_, _, hc, hd, ht, hb⟩ := h
  simp [Table.lengths, hc, hd, ht, hb]

/-! ## What `Cancel` and the other operations leave alone -/

/-- C11. For every table state (a terminated one included), `Cancel` changes
nothing but the cancelled flag: length, error, column buffers, resolved tags,
done channel, key, columns, bounds and defaults are what they were, and
`Len()`, `Empty()`, `Err()`, `Key()` and `Cols()` return what they returned
before. -/
theorem Cancel_frame (t : Table) :
    t.Cancel = { t with cancelled := 1 } ∧
      t.Cancel.l = t.l ∧ t.Cancel.err = t.err ∧ t.Cancel.colBufs = t.colBufs ∧
      t.Cancel.tags = t.tags ∧ t.Cancel.done = t.done ∧ t.Cancel.key = t.key ∧
      t.Cancel.cols = t.cols ∧ t.Cancel.bounds = t.bounds ∧ t.Cancel.defs = t.defs ∧
      t.Cancel.Len = t.Len ∧ t.Cancel.Empty = t.Empty ∧ t.Cancel.Err = t.Err ∧
      t.Cancel.Key = t.Key ∧ t.Cancel.Cols = t.Cols :=
  ⟨rfl, rfl, rfl, rfl, rfl, rfl, rfl, rfl, rfl, rfl, rfl, rfl, rfl, rfl, rfl⟩

/-- C12, as stated, fails: `newTable` keeps the `defs` it is given, so with one
column and an empty `defs` the table it returns has `len(tags) = len(cols) = 1`
and `len(defs) = 0`. -/
theorem newTable_defs_counterexample :
    shortDefsTable = newTable none ⟨0, 0⟩ [] [⟨"host", .TString⟩] [] ∧
      shortDefsTable.tags.length = 1 ∧ shortDefsTable.cols.length = 1 ∧
      shortDefsTable.defs.length = 0 ∧
      ¬ (shortDefsTable.tags.length = shortDefsTable.cols.length ∧
        shortDefsTable.cols.length = shortDefsTable.defs.length) := by
  decide

/-- C12, amended. Every table returned by `newTable` has
`len(tags) = len(cols) = len(colBufs)` and the `defs` it was given, so
`len(defs) = len(cols)` exactly when the slice passed in has one entry per
column; and `readTags`, `appendTags`, `appendBounds` (returning or stopped by a
panic), `Cancel` and `closeDone` each keep the lengths of `tags`, `cols`,
`defs` and `colBufs`, hence every equality among them. -/
theorem lengths_preserved (startColIdx stopColIdx : Nat) (t : Table) (tags : List Tag)
    (closed : List Chan) :
    (∀ (done : Option Chan) (bounds : Bounds) (key : List (ColMeta × String))
        (cols : List ColMeta) (defs : List (Option Bytes)),
        (newTable done bounds key cols defs).tags.length =
          (newTable done bounds key cols defs).cols.length ∧
        (newTable done bounds key cols defs).colBufs.length =
          (newTable done bounds key cols defs).cols.length ∧
        ((newTable done bounds key cols defs).defs.length =
          (newTable done bounds key cols defs).cols.length ↔ defs.length = cols.length)) ∧
      (t.readTags tags).table.lengths = t.lengths ∧
      t.appendTags.table.lengths = t.lengths ∧
      (t.appendBounds startColIdx stopColIdx).table.lengths = t.lengths ∧
      t.Cancel.lengths = t.lengths ∧
      (∀ t1 closed1, t.closeDone closed = some (t1, closed1) → t1.lengths = t.lengths) := by
  refine ⟨?_, ?_, ?_, ?_, rfl, ?_⟩
  · intro done bounds key cols defs
    simp [newTable]
  · exact lengths_of_layout _ _ (readTags_layout t tags)
  · exact lengths_of_layout _ _ (appendTags_layout t)
  · exact lengths_of_layout _ _ (appendBounds_layout startColIdx stopColIdx t)
  · intro t1 closed1 h
    exact lengths_of_layout _ _ (closeDone_layout t closed t1 closed1 h)

/-- C12, amended, at the sample table: `closeDone` returns there and keeps the
four lengths. -/
theorem lengths_preserved_witness :
    sampleTable.closeDone [] = some ({ sampleTable with done := none }, [7]) ∧
      (Table.lengths { sampleTable with done := none }) = sampleTable.lengths :=
  ⟨by decide, (lengths_preserved 0 1 sampleTable sampleTags []).2.2.2.2.2
    { sampleTable with done := none } [7] (by decide)⟩

/-- C13. `Key()` and `Cols()` of a new table are the key and columns given to
`newTable`; no call (`readTags`, `appendTags`, `appendBounds`, `Cancel`,
`closeDone`, `Retain`, `Release`, a typed accessor) changes key, cols, bounds
or defs of any table; so after every sequence of calls on a new table `Key()`,
`Cols()`, the bounds and the defaults are those given at construction. -/
theorem key_cols_bounds_fixed (startColIdx stopColIdx : Nat) (done : Option Chan)
    (bounds : Bounds) (key : List (ColMeta × String)) (cols : List ColMeta)
    (defs : List (Option Bytes)) (closed : List Chan) (ops : List Op) :
    (newTable done bounds key cols defs).Key = key ∧
      (newTable done bounds key cols defs).Cols = cols ∧
      (∀ (op : Op) (t : Table) (w : List Chan),
        (op.run startColIdx stopColIdx (t, w)).1.key = t.key ∧
        (op.run startColIdx stopColIdx (t, w)).1.cols = t.cols ∧
        (op.run startColIdx stopColIdx (t, w)).1.bounds = t.bounds ∧
        (op.run startColIdx stopColIdx (t, w)).1.defs = t.defs) ∧
      (runOps startColIdx stopColIdx ops (newTable done bounds key cols defs, closed)).1.Key
        = key ∧
      (runOps startColIdx stopColIdx ops (newTable done bounds key cols defs, closed)).1.Cols
        = cols ∧
      (runOps startColIdx stopColIdx ops (newTable done bounds key cols defs, closed)).1.bounds
        = bounds ∧
      (runOps startColIdx stopColIdx ops (newTable done bounds key cols defs, closed)).1.defs
        = defs := by
  have hrun := runOps_layout startColIdx stopColIdx ops (newTable done bounds key cols defs, closed)
  simp only [Table.layout, Prod.mk.injEq] at hrun
  obtain ⟨hb, hk, hc, hd, _, _⟩ := hrun
  refine ⟨rfl, rfl, ?_, hk, hc, hb, hd⟩
  intro op t w
  have hop := Op.run_layout startColIdx stopColIdx op (t, w)
  simp only [Table.layout, Prod.mk.injEq] at hop
  exact ⟨hop.2.1, hop.2.2.1, hop.1, hop.2.2.2.1⟩

/-- C16. For every table state `Empty()` is true exactly when `Len()` is 0, and
a table fresh from `newTable` is empty with `Len() = 0`. -/
theorem Empty_iff_Len_zero (t : Table) :
    (t.Empty = true ↔ t.Len = 0) ∧
      ∀ (done : Option Chan) (bounds : Bounds) (key : List (ColMeta × String))
        (cols : List ColMeta) (defs : List (Option Bytes)),
        (newTable done bounds key cols defs).Empty = true ∧
          (newTable done bounds key cols defs).Len = 0 := by
  refine ⟨?_, fun _ _ _ _ _ => ⟨rfl, rfl⟩⟩
  simp [Table.Empty, Table.Len]

/-! ## `readTags` starts from the defaults -/

/-- On a table with at least as many defaults as tags, `readTags` does not
depend on what `tags` held before the call, only on its length. -/
theorem readTags_forgets (t : Table) (prev : List (Option Bytes)) (tags : List Tag)
    (hprev : prev.length = t.tags.length) (hdefs : t.tags.length ≤ t.defs.length) :
    Table.readTags { t with tags := prev } tags = t.readTags tags := by
  have h1 := forEach_assignDef_take t hdefs
  have h2 := forEach_assignDef_take { t with tags := prev } (by simpa [hprev] using hdefs)
  simp only [hprev] at h2
  unfold Table.readTags
  simp only [hprev]
  rw [h1, h2]

/-- C14. On a table with `len(tags) = len(cols) ≤ len(defs)` and a tag list
whose keys all name a declared column, `readTags` gives the same result
whatever the previous contents `prev` of `tags` were; so a second `readTags`
with the same tag list changes nothing, and after `readTags` from any previous
contents a column that no tag of the list names holds its default. -/
theorem readTags_overwrites (t : Table) (prev : List (Option Bytes)) (tags : List Tag)
    (hprev : prev.length = t.tags.length) (htags : t.tags.length = t.cols.length)
    (hdefs : t.cols.length ≤ t.defs.length)
    (hkeys : ∀ tag ∈ tags, ∃ c ∈ t.cols, c.Label = tag.Key) :
    Table.readTags { t with tags := prev } tags = t.readTags tags ∧
      ∃ t1, Table.readTags { t with tags := prev } tags = .returned t1 ∧
        t1.readTags tags = .returned t1 ∧
        ∀ (j : Nat) (hj : j < t.cols.length), (∀ tag ∈ tags, (t.cols[j]).Label ≠ tag.Key) →
          t1.tags[j]? = t.defs[j]? := by
  have hforget := readTags_forgets t prev tags hprev (by omega)
  obtain ⟨tg, hrun, hlen, habs, _⟩ := readTags_returns t tags htags (by omega) hkeys
  refine ⟨hforget, { t with tags := tg }, by rw [hforget, hrun], ?_, ?_⟩
  · rw [readTags_forgets t tg tags hlen (by omega)]
    exact hrun
  · intro j hj hne
    apply habs j (by omega)
    intro tag htag
    rw [List.getElem?_eq_getElem hj]
    intro he
    exact hne tag htag (by simpa using he)

/-- C14 at the sample table: the previous series had `host=a`, `region=w`, the
current one has `host=b`. -/
theorem readTags_overwrites_witness :
    Table.readTags
        { sampleTable with tags := [none, none, none, none, some [97], some [119]] } hostTags =
      sampleTable.readTags hostTags ∧
      ∃ t1, Table.readTags
          { sampleTable with tags := [none, none, none, none, some [97], some [119]] } hostTags =
          .returned t1 ∧
        t1.readTags hostTags = .returned t1 ∧
        ∀ (j : Nat) (hj : j < sampleTable.cols.length),
          (∀ tag ∈ hostTags, (sampleTable.cols[j]).Label ≠ tag.Key) →
          t1.tags[j]? = sampleTable.defs[j]? :=
  readTags_overwrites sampleTable [none, none, none, none, some [97], some [119]] hostTags
    (by decide) (by decide) (by decide) (by decide)

/-- C17. On a table with `len(defs) ≥ len(tags) = len(cols)` and a tag list in
which each key is the label of some column, `readTags` returns: no index is out
of range. With an empty tag list the call is the first loop alone (no column is
looked up) and leaves in `tags` the first `len(tags)` defaults. -/
theorem readTags_total (t : Table) (tags : List Tag) (htags : t.tags.length = t.cols.length)
    (hdefs : t.tags.length ≤ t.defs.length)
    (hkeys : ∀ tag ∈ tags, ∃ c ∈ t.cols, c.Label = tag.Key) :
    (∃ t1, t.readTags tags = .returned t1) ∧
      t.readTags [] = forEach readTags.assignDef (List.range t.tags.length) t ∧
      t.readTags [] = .returned { t with tags := t.defs.take t.tags.length } := by
  obtain ⟨tg, hrun, _⟩ := readTags_returns t tags htags hdefs hkeys
  have h1 := forEach_assignDef_take t hdefs
  refine ⟨⟨_, hrun⟩, ?_, ?_⟩
  · unfold Table.readTags
    rw [h1]
    rfl
  · unfold Table.readTags
    rw [h1]
    rfl

/-- C17 at the sample table and the tag list `host=a`. -/
theorem readTags_total_witness :
    (∃ t1, sampleTable.readTags sampleTags = .returned t1) ∧
      sampleTable.readTags [] =
        forEach readTags.assignDef (List.range sampleTable.tags.length) sampleTable ∧
      sampleTable.readTags [] =
        .returned { sampleTable with tags := sampleTable.defs.take sampleTable.tags.length } :=
  readTags_total sampleTable sampleTags (by decide) (by decide) (by decide)

/-! ## What `appendBounds` and `appendTags` leave alone -/

/-- C15. With `startColIdx = 0` and `stopColIdx = 1`, on a table with at least
two columns and one buffer per column, `appendBounds` returns having written
the two buffers at `startColIdx` and `stopColIdx` and nothing else: every other
buffer, the resolved tags, the length and all other fields are as before. -/
theorem appendBounds_frame (startColIdx stopColIdx : Nat) (t : Table)
    (hstart : startColIdx = 0) (hstop : stopColIdx = 1)
    (hbufs : t.colBufs.length = t.cols.length) (hcols : 2 ≤ t.cols.length) :
    ∃ t1, t.appendBounds startColIdx stopColIdx = .returned t1 ∧
      t1 = { t with colBufs := t1.colBufs } ∧ t1.tags = t.tags ∧ t1.l = t.l ∧
      t1.colBufs.length = t.colBufs.length ∧
      (∀ j : Nat, j ≠ startColIdx → j ≠ stopColIdx → t1.colBufs[j]? = t.colBufs[j]?) ∧
      t1.colBufs[startColIdx]? =
        some (some (ArrowArray.int64 (List.replicate t.l t.bounds.Start))) ∧
      t1.colBufs[stopColIdx]? =
        some (some (ArrowArray.int64 (List.replicate t.l t.bounds.Stop))) := by
  subst hstart hstop
  have h0 : 0 < t.colBufs.length := by omega
  have h1 : 1 < t.colBufs.length := by omega
  refine ⟨_, appendBounds_returns 0 1 t (by omega), rfl, rfl, rfl, by simp, ?_, ?_, ?_⟩
  · intro j hj0 hj1
    show (List.set (List.set t.colBufs 0 _) 1 _)[j]? = _
    rw [List.getElem?_set_ne (Ne.symm hj1), List.getElem?_set_ne (Ne.symm hj0)]
  · show (List.set (List.set t.colBufs 0 _) 1 _)[0]? = _
    rw [List.getElem?_set_ne (by decide), List.getElem?_set_self h0]
  · show (List.set (List.set t.colBufs 0 _) 1 _)[1]? = _
    rw [List.getElem?_set_self (by rw [List.length_set]; exact h1)]

/-- C15 at the sample table of length 3. -/
theorem appendBounds_frame_witness :
    ∃ t1, sampleTable3.appendBounds 0 1 = .returned t1 ∧
      t1 = { sampleTable3 with colBufs := t1.colBufs } ∧ t1.tags = sampleTable3.tags ∧
      t1.l = sampleTable3.l ∧ t1.colBufs.length = sampleTable3.colBufs.length ∧
      (∀ j : Nat, j ≠ 0 → j ≠ 1 → t1.colBufs[j]? = sampleTable3.colBufs[j]?) ∧
      t1.colBufs[0]? =
        some (some (ArrowArray.int64 (List.replicate sampleTable3.l sampleTable3.bounds.Start))) ∧
      t1.colBufs[1]? =
        some (some (ArrowArray.int64 (List.replicate sampleTable3.l sampleTable3.bounds.Stop))) :=
  appendBounds_frame 0 1 sampleTable3 rfl rfl (by decide) (by decide)

/-- Whatever `appendTags` does, returning or not, only `colBufs` differs in the
table it leaves, and only at indices whose resolved tag is non-nil. -/
theorem appendTags_only_nonnil (t : Table) :
    t.appendTags.table = { t with colBufs := t.appendTags.table.colBufs } ∧
      ∀ j : Nat, (∀ v : Bytes, t.tags[j]? ≠ some (some v)) →
        t.appendTags.table.colBufs[j]? = t.colBufs[j]? := by
  have h := forEach_invariant
    (fun t1 => t1 = { t with colBufs := t1.colBufs } ∧
      ∀ j : Nat, (∀ v : Bytes, t.tags[j]? ≠ some (some v)) → t1.colBufs[j]? = t.colBufs[j]?)
    appendTags.column (List.range t.cols.length) ?_ t ⟨rfl, fun _ _ => rfl⟩
  · exact h
  · intro j _ t1 ⟨hframe, hkeep⟩
    have htags : t1.tags = t.tags := by rw [hframe]
    unfold appendTags.column
    cases hv : t1.tags[j]? with
    | none => exact ⟨hframe, hkeep⟩
    | some v =>
      cases v with
      | none => exact ⟨hframe, hkeep⟩
      | some v =>
        by_cases hj : j < t1.colBufs.length
        · simp only [hj, if_true, Outcome.table]
          refine ⟨by rw [hframe], ?_⟩
          intro i hi
          have hij : j ≠ i := by
            rintro rfl
            rw [htags] at hv
            exact hi v hv
          rw [List.getElem?_set_ne hij]
          exact hkeep i hi
        · simp only [hj, if_false, Outcome.table]
          exact ⟨hframe, hkeep⟩

/-- C18. On every table, `appendTags` leaves a table that differs from the one
before in `colBufs` alone (tags, defs, length, error and done are unchanged),
and `colBufs[j]` is unchanged at every index whose resolved value is not
non-nil: a column whose resolved value is nil keeps the buffer it held. On a
table with aligned slices the call returns, and after `readTags` with a tag
list whose keys are declared, a column with a nil default that no tag names
(such as the value and bounds columns) keeps its buffer through `appendTags`. -/
theorem appendTags_frame (t : Table) :
    t.appendTags.table = { t with colBufs := t.appendTags.table.colBufs } ∧
      t.appendTags.table.tags = t.tags ∧ t.appendTags.table.defs = t.defs ∧
      t.appendTags.table.l = t.l ∧ t.appendTags.table.err = t.err ∧
      t.appendTags.table.done = t.done ∧
      (∀ j : Nat, (∀ v : Bytes, t.tags[j]? ≠ some (some v)) →
        t.appendTags.table.colBufs[j]? = t.colBufs[j]?) ∧
      (t.tags.length = t.cols.length → t.colBufs.length = t.cols.length →
        t.appendTags.isReturned = true) ∧
      (∀ (tags : List Tag) (j : Nat), t.tags.length = t.cols.length →
        t.cols.length = t.defs.length → t.colBufs.length = t.cols.length →
        (∀ tag ∈ tags, ∃ c ∈ t.cols, c.Label = tag.Key) →
        t.defs[j]? = some none →
        (∀ tag ∈ tags, (t.cols[j]?).map ColMeta.Label ≠ some tag.Key) →
        ((t.readTags tags).andThen Table.appendTags).isReturned = true ∧
          ((t.readTags tags).andThen Table.appendTags).table.colBufs[j]? = t.colBufs[j]?) := by
  obtain ⟨hframe, hkeep⟩ := appendTags_only_nonnil t
  refine ⟨hframe, by rw [hframe], by rw [hframe], by rw [hframe], by rw [hframe],
    by rw [hframe], hkeep, ?_, ?_⟩
  · intro htags hbufs
    obtain ⟨bufs, hrun, _⟩ := appendTags_returns t htags hbufs
    rw [hrun]
    rfl
  · intro tags j htags hdefs hbufs hkeys hnil habs
    obtain ⟨tg, hrun, hlen, hdef, _⟩ := readTags_returns t tags htags (by omega) hkeys
    have hjd : j < t.tags.length := by
      by_contra hc
      rw [List.getElem?_eq_none (by omega)] at hnil
      simp at hnil
    have hjt : tg[j]? = some none := by rw [hdef j hjd habs, hnil]
    obtain ⟨bufs, hrun2, _, _, hkeep2⟩ :=
      appendTags_returns { t with tags := tg } (by simpa [htags] using hlen) hbufs
    rw [hrun]
    simp only [Outcome.andThen]
    rw [hrun2]
    exact ⟨rfl, hkeep2 j (Or.inr hjt)⟩

/-- C18 at the sample table of length 3 after `readTags` with `host=a`: the
value column `_value`, whose default is nil and which no tag names, keeps its
buffer. -/
theorem appendTags_frame_witness :
    ((sampleTable3.readTags sampleTags).andThen Table.appendTags).isReturned = true ∧
      ((sampleTable3.readTags sampleTags).andThen Table.appendTags).table.colBufs[3]? =
        sampleTable3.colBufs[3]? :=
  (appendTags_frame sampleTable3).2.2.2.2.2.2.2.2 sampleTags 3 (by decide) (by decide)
    (by decide) (by decide) (by decide) (by decide)

/-! ## `Strings` on a tag column -/

/-- With non-nil tag values, the second loop of `readTags` keeps a non-nil
entry of `tags` non-nil. -/
theorem forEach_assignTag_nonnil (tags : List Tag) (t : Table) (j : Nat)
    (hvals : ∀ tag ∈ tags, tag.Value ≠ none) (h : ∃ v : Bytes, t.tags[j]? = some (some v)) :
    ∃ v : Bytes, (forEach readTags.assignTag tags t).table.tags[j]? = some (some v) := by
  refine forEach_invariant (fun t1 => ∃ v : Bytes, t1.tags[j]? = some (some v))
    readTags.assignTag tags ?_ t h
  intro tag htag t1 ⟨v, hv⟩
  unfold readTags.assignTag
  by_cases hok : 0 ≤ ColIdx tag.Key t1.cols ∧ (ColIdx tag.Key t1.cols).toNat < t1.tags.length
  · simp only [hok, and_self, if_true, Outcome.table]
    by_cases hk : (ColIdx tag.Key t1.cols).toNat = j
    · cases hval : tag.Value with
      | none => exact absurd hval (hvals tag htag)
      | some w =>
        refine ⟨w, ?_⟩
        rw [← hk]
        exact List.getElem?_set_self hok.2
    · exact ⟨v, by rw [List.getElem?_set_ne hk]; exact hv⟩
  · simp only [hok, if_false, Outcome.table]
    exact ⟨v, hv⟩

/-- C19. On a table of length `N` with aligned slices, for a tag list whose
keys all name declared columns and whose values are non-nil, and a column `j`
of declared type String whose default is non-nil: `readTags` followed by
`appendTags` returns, the resolved value `tags[j]` is a non-nil `v`, and
`Strings(j)` succeeds with an array of exactly `N` elements, each equal to
`v`. -/
theorem Strings_after_appendTags (t : Table) (tags : List Tag) (j : Nat)
    (htags : t.tags.length = t.cols.length) (hdefs : t.cols.length = t.defs.length)
    (hbufs : t.colBufs.length = t.cols.length)
    (hkeys : ∀ tag ∈ tags, ∃ c ∈ t.cols, c.Label = tag.Key)
    (hvals : ∀ tag ∈ tags, tag.Value ≠ none)
    (hj : j < t.cols.length) (htyp : (t.cols[j]).Typ = .TString)
    (hdef : t.defs[j]? ≠ some none) :
    ∃ (t2 : Table) (v : Bytes),
      (t.readTags tags).andThen Table.appendTags = .returned t2 ∧ t2.Len = t.Len ∧
      t2.tags[j]? = some (some v) ∧ t2.Strings j = .ok (List.replicate t.Len v) := by
  obtain ⟨tg, hrun, hlen, _, _⟩ := readTags_returns t tags htags (by omega) hkeys
  have hnonnil : ∃ v : Bytes, tg[j]? = some (some v) := by
    have h1 := forEach_assignDef_take t (by omega)
    have hd : ∃ d : Bytes, (t.defs.take t.tags.length)[j]? = some (some d) := by
      rw [List.getElem?_take_of_lt (by omega)]
      rw [List.getElem?_eq_getElem (by omega)] at hdef ⊢
      cases hx : t.defs[j] with
      | none => rw [hx] at hdef; exact absurd rfl hdef
      | some d => exact ⟨d, rfl⟩
    have hrun1 := hrun
    unfold Table.readTags at hrun1
    rw [h1] at hrun1
    simp only [Outcome.andThen] at hrun1
    by_cases h0 : tags.length = 0
    · simp only [h0, if_true, Outcome.returned.injEq, Table.mk.injEq] at hrun1
      obtain ⟨d, hd⟩ := hd
      exact ⟨d, by rw [← hrun1.2.2.2.1]; exact hd⟩
    · simp only [h0, if_false] at hrun1
      have := forEach_assignTag_nonnil tags { t with tags := t.defs.take t.tags.length } j
        hvals hd
      rw [hrun1] at this
      exact this
  obtain ⟨v, hv⟩ := hnonnil
  obtain ⟨bufs, hrun2, _, hset, _⟩ :=
    appendTags_returns { t with tags := tg } (by simpa [htags] using hlen) hbufs
  have hbuf : bufs[j]? = some (some (ArrowArray.binary (List.replicate t.l v))) := hset j v hv
  refine ⟨{ t with tags := tg, colBufs := bufs }, v, ?_, rfl, hv, ?_⟩
  · rw [hrun]
    exact hrun2
  · have hc : t.cols[j]? = some t.cols[j] := List.getElem?_eq_getElem hj
    simp [Table.Strings, Table.typed, hc, CheckColType, htyp, hbuf, ArrowArray.asBinary,
      Table.Len]

/-- C19 at the sample table of length 3, the tag list `host=a` and the column
`region`, whose default is the non-nil empty string. -/
theorem Strings_after_appendTags_witness :
    ∃ (t2 : Table) (v : Bytes),
      (sampleTable3.readTags sampleTags).andThen Table.appendTags = .returned t2 ∧
      t2.Len = sampleTable3.Len ∧ t2.tags[5]? = some (some v) ∧
      t2.Strings 5 = .ok (List.replicate sampleTable3.Len v) :=
  Strings_after_appendTags sampleTable3 sampleTags 5 (by decide) (by decide) (by decide)
    (by decide) (by decide) (by decide) (by decide) (by decide)

end Reads
